import Mathlib

/-!
Verification of the go-nc-client change-detection engine.

This file gives a shallow embedding, in Lean 4, of the change-detection
core of the repository (`internal/diff/detector.go` and parts of
`internal/webdav/client.go`) and proves or refutes the frozen claims of
the specification against it.

Modelling conventions:
* Go `string` is Lean `String`; the Go `strings` helpers used by the
  source are re-implemented below over `String.data` (lists of chars).
* Go maps are association lists `List (String × α)` with overwrite
  insertion (`insertA`); iteration is in list order, one admissible
  order of Go's unspecified map iteration order.
* `time.Time` is modelled as an `Int` instant (nanoseconds); Go duration
  constants such as `time.Minute` become integer constants in the same
  unit.  `int64` sizes are modelled as `Int`.
* Fallible operations return `Option` / `Except`.
-/

namespace GoNC

/-! ## Go string primitives (`strings` package), re-implemented over char lists -/

/-- `strings.HasPrefix s pre`. -/
def goStartsWith (s pre : String) : Bool :=
  pre.data.isPrefixOf s.data

/-- `strings.TrimPrefix s pre`: removes `pre` once, when present. -/
def goTrimLead (s pre : String) : String :=
  if goStartsWith s pre then ⟨s.data.drop pre.data.length⟩ else s

/-- `strings.HasSuffix s suf`. -/
def goHasSuffix (s suf : String) : Bool :=
  suf.data.isSuffixOf s.data

/-- `strings.Trim s "/"` specialised to a one-character cutset `c`:
removes all leading and trailing occurrences of `c`. -/
def goTrimChar (s : String) (c : Char) : String :=
  ⟨((s.data.dropWhile (· = c)).reverse.dropWhile (· = c)).reverse⟩

/-- `strings.Split s (String.singleton c)`: split on every occurrence of `c`. -/
def goSplitChar (s : String) (c : Char) : List String :=
  (s.data.splitOn c).map (fun l => ⟨l⟩)

/-! ## Association lists standing for Go maps -/

/-- Read of a Go map: `m[k]` together with presence. -/
def lookupA {α : Type} : List (String × α) → String → Option α
  | [], _ => none
  | p :: rest, k => if p.1 = k then some p.2 else lookupA rest k

/-- Write to a Go map: `m[k] = v` (overwrite when the key is present). -/
def insertA {α : Type} : List (String × α) → String → α → List (String × α)
  | [], k, v => [(k, v)]
  | p :: rest, k, v => if p.1 = k then (k, v) :: rest else p :: insertA rest k v

/-- The keys of an association list. -/
def keysA {α : Type} (m : List (String × α)) : List String :=
  m.map Prod.fst

/-- Lookup in a Go map keyed by `int64` sizes. -/
def lookupZ {α : Type} : List (Int × α) → Int → Option α
  | [], _ => none
  | p :: rest, k => if p.1 = k then some p.2 else lookupZ rest k

/-- `m[s] = append(m[s], k)` for a Go map from sizes to key slices. -/
def appendZ : List (Int × List String) → Int → String → List (Int × List String)
  | [], s, k => [(s, [k])]
  | p :: rest, s, k => if p.1 = s then (s, p.2 ++ [k]) :: rest else p :: appendZ rest s k

@[simp] theorem lookupA_nil {α : Type} (k : String) : lookupA ([] : List (String × α)) k = none := rfl

/-! ## Data model (`internal/diff/detector.go`)

`FileState`, `State`, `Change`, `Changes`, translated field by field.
The `Inhabited` defaults coincide with Go zero values. -/

structure FileState where
  path : String
  isDir : Bool
  size : Int
  mtime : Int
  etag : String
deriving DecidableEq, Repr, Inhabited

structure State where
  files : List (String × FileState)
  dirETags : List (String × String)
  lastUpdate : Int
deriving DecidableEq, Repr, Inhabited

structure Change where
  type : String
  path : String
  oldPath : String
  isDir : Bool
  size : Int
  modified : Int
deriving DecidableEq, Repr, Inhabited

structure Changes where
  directory : String
  changes : List Change
  timestamp : Int
deriving DecidableEq, Repr, Inhabited

/-- A `Change` of the given type carrying a file's path/is_dir/size/mtime,
as built at each append site of `compareStates`. -/
def mkChange (ty : String) (f : FileState) : Change :=
  { type := ty, path := f.path, oldPath := "", isDir := f.isDir,
    size := f.size, modified := f.mtime }

/-- The `moved` record built by `detectMoves`: path from the created entry,
old path from the deleted entry, remaining fields from the created entry. -/
def movedOf (del cr : FileState) : Change :=
  { type := "moved", path := cr.path, oldPath := del.path, isDir := cr.isDir,
    size := cr.size, modified := cr.mtime }

/-! ## Comparator (`compareStates`, detector.go lines 258–330) -/

/-- The pre-filtering of a state's `Files` to one watch-root:
`strings.HasPrefix(key, dirPrefix)`. -/
def filesForDir (dirPrefix : String) (files : List (String × FileState)) :
    List (String × FileState) :=
  files.filter (fun q => goStartsWith q.1 dirPrefix)

/-- The updated-entry test of `compareStates` for a key present in both
states: ETag first, then size or modified time. -/
def classifyPair (prevFile curFile : FileState) : Option Change :=
  if curFile.etag ≠ prevFile.etag then
    some (mkChange "updated" curFile)
  else if curFile.size ≠ prevFile.size ∨ curFile.mtime ≠ prevFile.mtime then
    some (mkChange "updated" curFile)
  else
    none

/-- The two classification loops of `compareStates` (before `detectMoves`):
created/updated records from the current view, then deleted records from
the prior view. -/
def compareStatesRaw (directory : String)
    (prevFiles curFiles : List (String × FileState)) : List Change :=
  let dirPrefix := directory ++ ":"
  let prevD := filesForDir dirPrefix prevFiles
  let curD := filesForDir dirPrefix curFiles
  (curD.filterMap (fun q =>
    match lookupA prevD q.1 with
    | none => some (mkChange "created" q.2)
    | some prevFile => classifyPair prevFile q.2))
  ++ (prevD.filterMap (fun q =>
    match lookupA curD q.1 with
    | some _ => none
    | none => some (mkChange "deleted" q.2)))

/-! ## Move reconciliation (`detectMoves`, detector.go lines 332–445) -/

/-- `deletedFiles`: prior entries whose key is absent from the current view. -/
def deletedOf (prevD curD : List (String × FileState)) : List (String × FileState) :=
  prevD.filter (fun q => (lookupA curD q.1).isNone)

/-- `createdFiles`: current entries whose key is absent from the prior view. -/
def createdOf (prevD curD : List (String × FileState)) : List (String × FileState) :=
  curD.filter (fun q => (lookupA prevD q.1).isNone)

/-- Move-eligibility guard of the index-building loops: `!IsDir && Size > 0`. -/
def moveElig (f : FileState) : Bool :=
  !f.isDir && decide (0 < f.size)

/-- The `deletedByETag` / `createdByETag` index: ETag → key, restricted to
move-eligible entries with a non-empty ETag; later entries overwrite. -/
def buildETagIdx (l : List (String × FileState)) : List (String × String) :=
  l.foldl (fun m q =>
    if moveElig q.2 then
      (if q.2.etag = "" then m else insertA m q.2.etag q.1)
    else m) []

/-- The `deletedBySize` / `createdBySize` index: size → keys, restricted to
move-eligible entries. -/
def buildSizeIdx (l : List (String × FileState)) : List (Int × List String) :=
  l.foldl (fun m q =>
    if moveElig q.2 then appendZ m q.2.size q.1 else m) []

/-- `removeChange`: drop every record matching the given type and path. -/
def removeChange (changes : List Change) (changeType path : String) : List Change :=
  changes.filter (fun c => ¬(c.type = changeType ∧ c.path = path))

/-- `time.Minute` in the nanosecond unit used for modelled instants. -/
def oneMinute : Int := 60000000000

/-- One iteration of Pass 1 of `detectMoves` at an entry `(etag, delKey)` of
`deletedByETag`: when the ETag also indexes a created key, remove the raw
`created`/`deleted` records, append the `moved` record and mark both keys. -/
def pass1Step (deletedFiles createdFiles : List (String × FileState))
    (crIdx : List (String × String))
    (acc : List Change × List String) (q : String × String) :
    List Change × List String :=
  match lookupA crIdx q.1 with
  | none => acc
  | some crKey =>
    let delFile := (lookupA deletedFiles q.2).getD default
    let crFile := (lookupA createdFiles crKey).getD default
    let cs := removeChange (removeChange acc.1 "created" crFile.path) "deleted" delFile.path
    (cs ++ [movedOf delFile crFile], acc.2 ++ [q.2, crKey])

/-- Pass 1 of `detectMoves` (ETag identity), folding over `deletedByETag`;
the second component is the set of `matchedKeys`. -/
def pass1 (changes : List Change)
    (deletedFiles createdFiles : List (String × FileState))
    (delIdx crIdx : List (String × String)) : List Change × List String :=
  delIdx.foldl (pass1Step deletedFiles createdFiles crIdx) (changes, [])

/-- One iteration of Pass 2 of `detectMoves` at an entry `(size, delKeys)` of
`deletedBySize`: unique-size pairs of non-consumed keys within one minute
are rewritten into a `moved` record. -/
def pass2Step (matched : List String)
    (deletedFiles2 createdFiles2 : List (String × FileState))
    (crSize : List (Int × List String))
    (cs : List Change) (q : Int × List String) : List Change :=
  match lookupZ crSize q.1 with
  | none => cs
  | some crKeys =>
    if q.2.length ≠ 1 ∨ crKeys.length ≠ 1 then cs
    else
      let delKey := q.2.headD ""
      let crKey := crKeys.headD ""
      if delKey ∈ matched ∨ crKey ∈ matched then cs
      else
        let delFile := (lookupA deletedFiles2 delKey).getD default
        let crFile := (lookupA createdFiles2 crKey).getD default
        let timeDiff := crFile.mtime - delFile.mtime
        if timeDiff < oneMinute ∧ -oneMinute < timeDiff then
          removeChange (removeChange cs "created" crFile.path) "deleted" delFile.path
            ++ [movedOf delFile crFile]
        else cs

/-- `detectMoves` (detector.go lines 332–445): build the deleted/created
views and the ETag and size indexes, run Pass 1, drop consumed keys, run
Pass 2. -/
def detectMoves (changes : List Change)
    (prevD curD : List (String × FileState)) : List Change :=
  let deletedFiles := deletedOf prevD curD
  let createdFiles := createdOf prevD curD
  let delETag := buildETagIdx deletedFiles
  let crETag := buildETagIdx createdFiles
  let delSize := buildSizeIdx deletedFiles
  let crSize := buildSizeIdx createdFiles
  let r := pass1 changes deletedFiles createdFiles delETag crETag
  let matched := r.2
  let deletedFiles2 := deletedFiles.filter (fun q => q.1 ∉ matched)
  let createdFiles2 := createdFiles.filter (fun q => q.1 ∉ matched)
  delSize.foldl (pass2Step matched deletedFiles2 createdFiles2 crSize) r.1

/-- `compareStates` (detector.go lines 258–330): classification loops
followed by move reconciliation on the per-root views. -/
def compareStates (directory : String)
    (prevFiles curFiles : List (String × FileState)) : List Change :=
  let dirPrefix := directory ++ ":"
  detectMoves (compareStatesRaw directory prevFiles curFiles)
    (filesForDir dirPrefix prevFiles) (filesForDir dirPrefix curFiles)

/-! ## Comparator characterization -/

/-- The records of a change list concerning one path. -/
def recordsFor (cs : List Change) (p : String) : List Change :=
  cs.filter (fun c => c.path == p)

/-- Composite-key well-formedness for one watch-root view: every entry's key
is `dirPrefix ++ path` (invariant 1 of the data model §3). -/
def keyInv (dirPrefix : String) (l : List (String × FileState)) : Prop :=
  ∀ q ∈ l, q.1 = dirPrefix ++ q.2.path

/-! Size-index analogues of the association-list facts, for `Int` keys. -/

def keysZ {α : Type} (m : List (Int × α)) : List Int :=
  m.map Prod.fst

/-! ## Naming the intermediate views of `detectMoves` -/

/-- The `deletedFiles` view built inside `compareStates`/`detectMoves`. -/
def delView (directory : String) (prevFiles curFiles : List (String × FileState)) :
    List (String × FileState) :=
  deletedOf (filesForDir (directory ++ ":") prevFiles) (filesForDir (directory ++ ":") curFiles)

/-- The `createdFiles` view built inside `compareStates`/`detectMoves`. -/
def crView (directory : String) (prevFiles curFiles : List (String × FileState)) :
    List (String × FileState) :=
  createdOf (filesForDir (directory ++ ":") prevFiles) (filesForDir (directory ++ ":") curFiles)

/-- The Pass 1 run performed by `compareStates` (changes and matched keys). -/
def pass1Of (directory : String) (prevFiles curFiles : List (String × FileState)) :
    List Change × List String :=
  pass1 (compareStatesRaw directory prevFiles curFiles)
    (delView directory prevFiles curFiles) (crView directory prevFiles curFiles)
    (buildETagIdx (delView directory prevFiles curFiles))
    (buildETagIdx (crView directory prevFiles curFiles))

/-! ## Detection orchestrator (`DetectChanges`, detector.go lines 56–256) -/

/-- The watch-root normalization at the top of the per-directory loop
(detector.go lines 88–95): trim one leading `/`, map the empty string to
`/`, then ensure a leading `/`. -/
def normalizeDir (dir : String) : String :=
  if goTrimLead dir "/" = "" then "/"
  else if goStartsWith (goTrimLead dir "/") "/" then goTrimLead dir "/"
  else "/" ++ goTrimLead dir "/"

/-- The subdirectory-path normalization used by `etagStorer`
(detector.go lines 198–205): ensure a leading `/`. -/
def normSlash (p : String) : String :=
  if goStartsWith p "/" then p else "/" ++ p

/-- `webdav.FileInfo`, the entries returned by the remote walker. -/
structure FileInfo where
  path : String
  isDir : Bool
  size : Int
  mtime : Int
  etag : String
deriving DecidableEq, Repr, Inhabited

/-- The conversion `FileInfo` → `FileState` performed when installing
walker results into the current state (detector.go lines 215–224). -/
def toFileState (f : FileInfo) : FileState :=
  { path := f.path, isDir := f.isDir, size := f.size, mtime := f.mtime, etag := f.etag }

/-- `isHidden` (detector.go lines 449–457, identical in
webdav/client.go lines 42–50): some `/`-separated segment of the trimmed
path starts with `.`. -/
def isHidden (path : String) : Bool :=
  (goSplitChar (goTrimChar path '/') '/').any
    (fun part => !(part == "") && goStartsWith part ".")

/-- The remote client as an oracle: `Stat` (PROPFIND depth 0) and the
recursive ETag-optimized walker `ListFilesWithETagOptimization`, whose
returned value also records every `(subdir, etag)` pair it reported
through the `etagStorer` callback.  `none` models a transport error. -/
structure ClientOracle where
  stat : String → Option FileInfo
  walk : String → Bool → Option (List FileInfo × List (String × String))

/-- One iteration of the per-directory loop of `DetectChanges`
(detector.go lines 88–247): normalize, stat, fast path (ETag unchanged:
copy prior entries of this root, hidden-filtered) or slow path (walk and
install the returned entries under composite keys, record reported
subdirectory ETags), record the root ETag, compare states. -/
def processDir (o : ClientOracle) (now : Int) (prevState : State)
    (includeHidden : Bool) (cur : State) (dir0 : String) : Option (State × Changes) :=
  let dir := normalizeDir dir0
  match o.stat dir with
  | none => none
  | some dirInfo =>
    let prevDirETag := (lookupA prevState.dirETags dir).getD ""
    let currentDirETag := dirInfo.etag
    if prevDirETag ≠ "" ∧ prevDirETag = currentDirETag then
      let copied := prevState.files.filter (fun q =>
        goStartsWith q.1 (dir ++ ":") && (includeHidden || !isHidden q.2.path))
      let cur2 : State :=
        { cur with
          files := copied.foldl (fun m q => insertA m q.1 q.2) cur.files,
          dirETags := insertA cur.dirETags dir currentDirETag }
      some (cur2, { directory := dir,
                    changes := compareStates dir prevState.files cur2.files,
                    timestamp := now })
    else
      match o.walk dir includeHidden with
      | none => none
      | some (files, sunk) =>
        let cur2 : State :=
          { cur with
            files := files.foldl
              (fun m f => insertA m (dir ++ ":" ++ f.path) (toFileState f)) cur.files,
            dirETags := insertA
              (sunk.foldl (fun m p => insertA m (normSlash p.1) p.2) cur.dirETags)
              dir currentDirETag }
        some (cur2, { directory := dir,
                      changes := compareStates dir prevState.files cur2.files,
                      timestamp := now })

/-- The per-directory loop of `DetectChanges`, threading the current
state; any per-directory failure aborts the whole detection. -/
def detectDirs (o : ClientOracle) (now : Int) (prevState : State)
    (includeHidden : Bool) : List String → State → Option (State × List Changes)
  | [], cur => some (cur, [])
  | d :: rest, cur =>
    match processDir o now prevState includeHidden cur d with
    | none => none
    | some (cur', ch) =>
      match detectDirs o now prevState includeHidden rest cur' with
      | none => none
      | some (curF, chs) => some (curF, ch :: chs)

/-! ## Snapshot serialization (§6, `loadState`/`saveState`)

JSON documents are modelled as value trees (`Jx`); the RFC3339 rendering
of `time.Time` is an injective codec and is abstracted by storing the
integer instant (`Jx.num`).  `json.Marshal` emits struct fields in
declaration order and sorts map keys; `json.Unmarshal` ignores unknown
fields, treats `null`/absent as the zero value, and fails on a type
mismatch. -/

inductive Jx where
  | str (s : String)
  | num (n : Int)
  | bool (b : Bool)
  | null
  | obj (fields : List (String × Jx))
deriving Repr, Inhabited

/-- Insert into a key-sorted association list (used to model
`json.Marshal`'s sorted map-key output). -/
def insSorted {α : Type} : (String × α) → List (String × α) → List (String × α)
  | p, [] => [p]
  | p, q :: rest => if p.1 ≤ q.1 then p :: q :: rest else q :: insSorted p rest

/-- Sort an association list by key (insertion sort). -/
def sortByKey {α : Type} (l : List (String × α)) : List (String × α) :=
  l.foldr insSorted []

/-- Strictly increasing key list (the canonical form emitted by
`json.Marshal`, whose map keys are sorted and unique). -/
def strictSorted : List String → Bool
  | [] => true
  | [_] => true
  | a :: b :: rest => decide (a < b) && strictSorted (b :: rest)

/-- `json.Marshal` of a `FileState` (field order of the Go struct). -/
def encodeFileState (f : FileState) : Jx :=
  Jx.obj [("path", Jx.str f.path), ("is_dir", Jx.bool f.isDir),
    ("size", Jx.num f.size), ("modified_time", Jx.num f.mtime),
    ("etag", Jx.str f.etag)]

/-- `json.Marshal` of a `State` (struct field order; map keys sorted). -/
def encodeState (s : State) : Jx :=
  Jx.obj [("files", Jx.obj ((sortByKey s.files).map
      (fun q => (q.1, encodeFileState q.2)))),
    ("directory_etags", Jx.obj ((sortByKey s.dirETags).map
      (fun q => (q.1, Jx.str q.2)))),
    ("last_update", Jx.num s.lastUpdate)]

/-- Unmarshal of a string-typed field: absent or `null` leaves the zero
value, a string succeeds, anything else is a type error. -/
def getStrField (fs : List (String × Jx)) (name : String) : Option String :=
  match lookupA fs name with
  | none => some ""
  | some (Jx.str s) => some s
  | some Jx.null => some ""
  | some _ => none

/-- Unmarshal of a bool-typed field. -/
def getBoolField (fs : List (String × Jx)) (name : String) : Option Bool :=
  match lookupA fs name with
  | none => some false
  | some (Jx.bool b) => some b
  | some Jx.null => some false
  | some _ => none

/-- Unmarshal of a numeric (or time) field. -/
def getNumField (fs : List (String × Jx)) (name : String) : Option Int :=
  match lookupA fs name with
  | none => some 0
  | some (Jx.num n) => some n
  | some Jx.null => some 0
  | some _ => none

/-- `json.Unmarshal` into a `FileState`. -/
def decodeFileState : Jx → Option FileState
  | Jx.obj fs =>
    match getStrField fs "path", getBoolField fs "is_dir", getNumField fs "size",
        getNumField fs "modified_time", getStrField fs "etag" with
    | some p, some b, some n, some m, some e => some ⟨p, b, n, m, e⟩
    | _, _, _, _, _ => none
  | Jx.null => some default
  | _ => none

/-- Unmarshal of the `files` map's entries. -/
def decodeFileEntries : List (String × Jx) → Option (List (String × FileState))
  | [] => some []
  | (k, v) :: rest =>
    match decodeFileState v, decodeFileEntries rest with
    | some f, some l => some ((k, f) :: l)
    | _, _ => none

/-- Unmarshal of the `files` map (`null` is the nil map). -/
def decodeFilesMap : Jx → Option (List (String × FileState))
  | Jx.null => some []
  | Jx.obj fs => decodeFileEntries fs
  | _ => none

/-- Unmarshal of the `directory_etags` map's entries. -/
def decodeETagEntries : List (String × Jx) → Option (List (String × String))
  | [] => some []
  | (k, v) :: rest =>
    match v with
    | Jx.str s => (decodeETagEntries rest).map (fun l => (k, s) :: l)
    | Jx.null => (decodeETagEntries rest).map (fun l => (k, "") :: l)
    | _ => none

/-- Unmarshal of the `directory_etags` map. -/
def decodeETagsMap : Jx → Option (List (String × String))
  | Jx.null => some []
  | Jx.obj fs => decodeETagEntries fs
  | _ => none

/-- `json.Unmarshal` into a `State`, including the nil-map fixups of
`loadState` (detector.go lines 487–492): absent or null maps become
empty maps. -/
def decodeState : Jx → Option State
  | Jx.obj fs =>
    match (match lookupA fs "files" with
           | none => some []
           | some v => decodeFilesMap v),
          (match lookupA fs "directory_etags" with
           | none => some []
           | some v => decodeETagsMap v),
          (match lookupA fs "last_update" with
           | none => some 0
           | some (Jx.num n) => some n
           | some Jx.null => some 0
           | some _ => none) with
    | some f, some d, some t => some ⟨f, d, t⟩
    | _, _, _ => none
  | Jx.null => some ⟨[], [], 0⟩
  | _ => none

/-- `loadState` (detector.go lines 469–495): a missing state file yields
the empty snapshot; an existing but undecodable one fails (`Corrupt`).
The file's content is modelled as `none` (absent) or the parsed JSON
document. -/
def loadState (content : Option Jx) : Except Unit State :=
  match content with
  | none => Except.ok ⟨[], [], 0⟩
  | some j =>
    match decodeState j with
    | none => Except.error ()
    | some s => Except.ok s

/-- `DetectChanges` (detector.go lines 56–256) up to the final save: load
the prior snapshot — falling back to an empty one when loading fails
(lines 62–68) — then run the per-directory loop on a fresh current
state. -/
def detectTop (o : ClientOracle) (now : Int) (content : Option Jx)
    (directories : List String) (includeHidden : Bool) :
    Option (List Changes × State) :=
  let prevState := match loadState content with
    | Except.ok s => s
    | Except.error _ => ⟨[], [], 0⟩
  match detectDirs o now prevState includeHidden directories ⟨[], [], now⟩ with
  | none => none
  | some (curF, chs) => some (chs, curF)

/-! ## Persistence (`saveState`, detector.go lines 497–526)

`saveState` resolves the directory of the state file, creates it with
`os.MkdirAll(dir, 0755)` unless it is `"."` or `""`, marshals the state
and writes it with `os.WriteFile(stateFile, data, 0644)` — a direct,
in-place write.  The file system is modelled as path→(contents, mode)
maps; `os.WriteFile`'s failure semantics are the POSIX ones for a
truncate-then-write call: a write that fails after `k` bytes leaves the
target holding a prefix of the new data. -/

structure FS where
  files : List (String × (String × Nat))
  dirs : List (String × Nat)
deriving DecidableEq, Repr

/-- The outcome of one `saveState` run: whether `MkdirAll` succeeds, and
whether/where `os.WriteFile` fails (`none` = full write). -/
structure SaveRun where
  mkdirOK : Bool
  writeFailAt : Option Nat
deriving DecidableEq, Repr

/-- `filepath.Dir` for slash-separated paths without `.`/`..` segments:
everything before the final `/` (trailing slashes dropped), `"."` when
there is no slash, `"/"` for a root-level file. -/
def goDir (p : String) : String :=
  match (p.data.reverse.dropWhile (fun c => ¬(c = '/'))).dropWhile (fun c => c = '/') with
  | [] => if p.data.contains '/' then "/" else "."
  | l => ⟨l.reverse⟩

/-- One run of `saveState` on file system `fs`, writing the serialized
snapshot `data` to `stateFile`: the pair is the resulting file system and
whether the save succeeded. -/
def saveStateFS (fs : FS) (stateFile data : String) (r : SaveRun) : FS × Bool :=
  let dir := goDir stateFile
  if dir ≠ "." ∧ dir ≠ "" ∧ r.mkdirOK = false then
    (fs, false)
  else
    let fs1 := if dir ≠ "." ∧ dir ≠ "" then
        { fs with dirs := insertA fs.dirs dir 0o755 }
      else fs
    match r.writeFailAt with
    | none => ({ fs1 with files := insertA fs1.files stateFile (data, 0o644) }, true)
    | some k =>
      ({ fs1 with files := insertA fs1.files stateFile (⟨data.data.take k⟩, 0o644) }, false)

/-! ## The recursive walk (`walkDir`, webdav/client.go lines 139–223)

The remote tree reachable through PROPFIND is modelled as a finite tree
whose nodes carry the adapter-normalized `FileInfo` of each child (§4.1:
account prefixes stripped, paths absolute, self-entries removed).
`walkList` is the loop body of `walkDir` over a directory's children:
hidden entries (when `include_hidden = false`) are not appended but their
subdirectories are still descended into; visible entries are appended and
their subdirectories descended. -/

inductive RTree where
  | node : List (FileInfo × RTree) → RTree

/-- `walkDir`'s accumulation over a children list. -/
def walkList (includeHidden : Bool) : List (FileInfo × RTree) → List FileInfo
  | [] => []
  | (item, RTree.node cs) :: rest =>
    (if !includeHidden && isHidden item.path then
      (if item.isDir then walkList includeHidden cs else [])
    else
      item :: (if item.isDir then walkList includeHidden cs else []))
    ++ walkList includeHidden rest

/-! ## Theorems -/

theorem lookupA_cons {α : Type} (p : String × α) (rest : List (String × α)) (k : String) :
    lookupA (p :: rest) k = if p.1 = k then some p.2 else lookupA rest k := rfl

/-- A successful lookup exhibits a member of the list. -/
theorem lookupA_mem {α : Type} {m : List (String × α)} {k : String} {v : α}
    (h : lookupA m k = some v) : (k, v) ∈ m := by
  induction m with
  | nil => simp at h
  | cons p rest ih =>
    rw [lookupA_cons] at h
    by_cases hk : p.1 = k
    · obtain ⟨p1, p2⟩ := p
      simp only at hk
      subst hk
      simp at h
      subst h
      exact List.mem_cons_self _ _
    · rw [if_neg hk] at h
      exact List.mem_cons_of_mem _ (ih h)

/-- In a list with no duplicate keys, membership determines the lookup. -/
theorem lookupA_of_mem {α : Type} {m : List (String × α)} {k : String} {v : α}
    (hnd : (keysA m).Nodup) (h : (k, v) ∈ m) : lookupA m k = some v := by
  induction m with
  | nil => simp at h
  | cons p rest ih =>
    simp only [keysA, List.map_cons, List.nodup_cons] at hnd
    rcases List.mem_cons.mp h with h1 | h1
    · rw [← h1]
      simp [lookupA_cons]
    · rw [lookupA_cons]
      by_cases hk : p.1 = k
      · exfalso
        apply hnd.1
        rw [hk]
        exact List.mem_map.mpr ⟨(k, v), h1, rfl⟩
      · rw [if_neg hk]
        exact ih hnd.2 h1

/-- A `none` lookup means the key is absent. -/
theorem lookupA_eq_none_iff {α : Type} {m : List (String × α)} {k : String} :
    lookupA m k = none ↔ k ∉ keysA m := by
  induction m with
  | nil => simp [keysA]
  | cons p rest ih =>
    rw [lookupA_cons]
    by_cases hk : p.1 = k
    · simp [hk, keysA]
    · rw [if_neg hk, ih]
      have hk' : ¬(k = p.1) := fun hke => hk hke.symm
      simp [keysA, List.mem_cons, hk']

theorem strAppend_cancel_left {a x y : String} (h : a ++ x = a ++ y) : x = y := by
  have h2 := congrArg String.data h
  simp only [String.data_append] at h2
  have h3 := List.append_cancel_left h2
  cases x
  cases y
  simp_all

theorem keysA_filter_nodup {f : String × FileState → Bool}
    {l : List (String × FileState)} (hnd : (keysA l).Nodup) :
    (keysA (l.filter f)).Nodup := by
  have hsub : List.Sublist (keysA (l.filter f)) (keysA l) :=
    (List.filter_sublist l).map Prod.fst
  exact hnd.sublist hsub

theorem keyInv_filesForDir {pre : String} {l : List (String × FileState)}
    (hinv : ∀ q ∈ l, goStartsWith q.1 pre = true → q.1 = pre ++ q.2.path) :
    keyInv pre (filesForDir pre l) := by
  intro q hq
  rw [filesForDir, List.mem_filter] at hq
  exact hinv q hq.1 hq.2

theorem recordsFor_append (cs ds : List Change) (p : String) :
    recordsFor (cs ++ ds) p = recordsFor cs p ++ recordsFor ds p := by
  simp [recordsFor]

/-- Core classification lemma: in a per-key `filterMap` over a well-keyed
association list, the records concerning path `p` come exactly from the
entry stored at key `pre ++ p`. -/
theorem filterMap_recordsFor (pre p : String) (l : List (String × FileState))
    (hnd : (keysA l).Nodup) (hinv : keyInv pre l)
    (g : String × FileState → Option Change)
    (hg : ∀ q c, g q = some c → c.path = q.2.path) :
    recordsFor (l.filterMap g) p
      = (match lookupA l (pre ++ p) with
         | some f => (g (pre ++ p, f)).toList
         | none => []) := by
  induction l with
  | nil => rfl
  | cons q rest ih =>
    have hndr : (keysA rest).Nodup := by
      simp only [keysA, List.map_cons, List.nodup_cons] at hnd
      exact hnd.2
    have hinvr : keyInv pre rest := fun r hr => hinv r (List.mem_cons_of_mem _ hr)
    have hq : q.1 = pre ++ q.2.path := hinv q (List.mem_cons_self _ _)
    by_cases hkey : q.1 = pre ++ p
    · have hpath : q.2.path = p := strAppend_cancel_left (hq.symm.trans hkey)
      have hrest : lookupA rest (pre ++ p) = none := by
        rw [lookupA_eq_none_iff, ← hkey]
        simp only [keysA, List.map_cons, List.nodup_cons] at hnd
        exact hnd.1
      rw [lookupA_cons, if_pos hkey]
      have hred : (match some q.2 with
        | some f => (g (pre ++ p, f)).toList
        | none => ([] : List Change)) = (g (pre ++ p, q.2)).toList := rfl
      rw [hred, ← hkey, Prod.mk.eta]
      cases hg0 : g q with
      | none =>
        simp only [List.filterMap_cons, hg0, Option.toList_none]
        rw [ih hndr hinvr, hrest]
      | some c =>
        have hcp : c.path = p := (hg _ _ hg0).trans hpath
        simp only [List.filterMap_cons, hg0, Option.toList_some]
        rw [recordsFor, List.filter_cons]
        have : (c.path == p) = true := by simp [hcp]
        rw [if_pos this]
        have ihr := ih hndr hinvr
        rw [recordsFor] at ihr
        rw [ihr, hrest]
    · have hpath : q.2.path ≠ p := fun hp => hkey (hq.trans (by rw [hp]))
      rw [lookupA_cons, if_neg hkey]
      cases hg0 : g q with
      | none =>
        simp only [List.filterMap_cons, hg0]
        exact ih hndr hinvr
      | some c =>
        have hcp : c.path ≠ p := fun hcp => hpath ((hg _ _ hg0).symm.trans hcp)
        simp only [List.filterMap_cons, hg0]
        rw [recordsFor, List.filter_cons]
        have : (c.path == p) = false := by simp [hcp]
        rw [this]
        simp only [Bool.false_eq_true, if_false]
        exact ih hndr hinvr

theorem classifyPair_path {pf cf : FileState} {c : Change}
    (h : classifyPair pf cf = some c) : c.path = cf.path := by
  rw [classifyPair] at h
  split at h
  · cases h; rfl
  · split at h
    · cases h; rfl
    · cases h

/-- `Option.toList` of the updated-entry test: an `updated` record exactly
when ETag, size or mtime differ. -/
theorem classifyPair_toList (pf cf : FileState) :
    (classifyPair pf cf).toList
      = (if cf.etag ≠ pf.etag ∨ cf.size ≠ pf.size ∨ cf.mtime ≠ pf.mtime
         then [mkChange "updated" cf] else []) := by
  rw [classifyPair]
  by_cases h1 : cf.etag = pf.etag
  · by_cases h2 : cf.size = pf.size
    · by_cases h3 : cf.mtime = pf.mtime
      · simp [h1, h2, h3]
      · simp [h1, h2, h3]
    · simp [h1, h2]
  · simp [h1]

/-- Complete per-path characterization of the raw comparator output. -/
theorem compareRaw_recordsFor (directory p : String)
    (prevFiles curFiles : List (String × FileState))
    (hndp : (keysA prevFiles).Nodup) (hndc : (keysA curFiles).Nodup)
    (hip : ∀ q ∈ prevFiles, goStartsWith q.1 (directory ++ ":") = true →
      q.1 = (directory ++ ":") ++ q.2.path)
    (hic : ∀ q ∈ curFiles, goStartsWith q.1 (directory ++ ":") = true →
      q.1 = (directory ++ ":") ++ q.2.path) :
    recordsFor (compareStatesRaw directory prevFiles curFiles) p
      = (match lookupA (filesForDir (directory ++ ":") curFiles) ((directory ++ ":") ++ p),
               lookupA (filesForDir (directory ++ ":") prevFiles) ((directory ++ ":") ++ p) with
         | some cf, none => [mkChange "created" cf]
         | some cf, some pf => (classifyPair pf cf).toList
         | none, some pf => [mkChange "deleted" pf]
         | none, none => []) := by
  have hndpD : (keysA (filesForDir (directory ++ ":") prevFiles)).Nodup :=
    keysA_filter_nodup hndp
  have hndcD : (keysA (filesForDir (directory ++ ":") curFiles)).Nodup :=
    keysA_filter_nodup hndc
  have hipD := keyInv_filesForDir hip
  have hicD := keyInv_filesForDir hic
  simp only [compareStatesRaw]
  rw [recordsFor_append]
  rw [filterMap_recordsFor (directory ++ ":") p _ hndcD hicD _
    (by
      intro q c h
      cases hl : lookupA (filesForDir (directory ++ ":") prevFiles) q.1 with
      | none => rw [hl] at h; cases h; rfl
      | some pf => rw [hl] at h; exact classifyPair_path h)]
  rw [filterMap_recordsFor (directory ++ ":") p _ hndpD hipD _
    (by
      intro q c h
      cases hl : lookupA (filesForDir (directory ++ ":") curFiles) q.1 with
      | none => rw [hl] at h; cases h; rfl
      | some cf => rw [hl] at h; cases h)]
  cases hc : lookupA (filesForDir (directory ++ ":") curFiles) ((directory ++ ":") ++ p) with
  | none =>
    cases hp : lookupA (filesForDir (directory ++ ":") prevFiles) ((directory ++ ":") ++ p) with
    | none => simp [hp, hc]
    | some pf => simp [hp, hc]
  | some cf =>
    cases hp : lookupA (filesForDir (directory ++ ":") prevFiles) ((directory ++ ":") ++ p) with
    | none => simp [hp, hc]
    | some pf => simp [hp, hc]

/-- C2: for every watch-root and every composite key scoped to it, the
comparator's classification stage emits exactly one `created` record when
the key is only in the current state, exactly one `deleted` record when
the key is only in the prior state, and for a key present in both states
an `updated` record exactly when the ETags, the sizes or the mtimes
differ; when all three agree it emits no record for that key. -/
theorem comparator_classification
    (directory p : String) (prevFiles curFiles : List (String × FileState))
    (hndp : (keysA prevFiles).Nodup) (hndc : (keysA curFiles).Nodup)
    (hip : ∀ q ∈ prevFiles, goStartsWith q.1 (directory ++ ":") = true →
      q.1 = (directory ++ ":") ++ q.2.path)
    (hic : ∀ q ∈ curFiles, goStartsWith q.1 (directory ++ ":") = true →
      q.1 = (directory ++ ":") ++ q.2.path) :
    (∀ cf, lookupA (filesForDir (directory ++ ":") curFiles) ((directory ++ ":") ++ p) = some cf →
       lookupA (filesForDir (directory ++ ":") prevFiles) ((directory ++ ":") ++ p) = none →
       recordsFor (compareStatesRaw directory prevFiles curFiles) p = [mkChange "created" cf]) ∧
    (∀ pf, lookupA (filesForDir (directory ++ ":") prevFiles) ((directory ++ ":") ++ p) = some pf →
       lookupA (filesForDir (directory ++ ":") curFiles) ((directory ++ ":") ++ p) = none →
       recordsFor (compareStatesRaw directory prevFiles curFiles) p = [mkChange "deleted" pf]) ∧
    (∀ cf pf, lookupA (filesForDir (directory ++ ":") curFiles) ((directory ++ ":") ++ p) = some cf →
       lookupA (filesForDir (directory ++ ":") prevFiles) ((directory ++ ":") ++ p) = some pf →
       recordsFor (compareStatesRaw directory prevFiles curFiles) p
         = (if cf.etag ≠ pf.etag ∨ cf.size ≠ pf.size ∨ cf.mtime ≠ pf.mtime
            then [mkChange "updated" cf] else [])) := by
  refine ⟨?_, ?_, ?_⟩
  · intro cf h1 h2
    rw [compareRaw_recordsFor directory p prevFiles curFiles hndp hndc hip hic, h1, h2]
  · intro pf h1 h2
    rw [compareRaw_recordsFor directory p prevFiles curFiles hndp hndc hip hic, h1, h2]
  · intro cf pf h1 h2
    rw [compareRaw_recordsFor directory p prevFiles curFiles hndp hndc hip hic, h1, h2]
    exact classifyPair_toList pf cf

/-- Witness for C2 at a concrete one-entry current state. -/
theorem comparator_classification_witness :
    (∀ cf, lookupA (filesForDir ("/W" ++ ":") [("/W:/a", (⟨"/a", false, 3, 5, "E"⟩ : FileState))]) (("/W" ++ ":") ++ "/a") = some cf →
       lookupA (filesForDir ("/W" ++ ":") ([] : List (String × FileState))) (("/W" ++ ":") ++ "/a") = none →
       recordsFor (compareStatesRaw "/W" [] [("/W:/a", (⟨"/a", false, 3, 5, "E"⟩ : FileState))]) "/a" = [mkChange "created" cf]) ∧
    (∀ pf, lookupA (filesForDir ("/W" ++ ":") ([] : List (String × FileState))) (("/W" ++ ":") ++ "/a") = some pf →
       lookupA (filesForDir ("/W" ++ ":") [("/W:/a", (⟨"/a", false, 3, 5, "E"⟩ : FileState))]) (("/W" ++ ":") ++ "/a") = none →
       recordsFor (compareStatesRaw "/W" [] [("/W:/a", (⟨"/a", false, 3, 5, "E"⟩ : FileState))]) "/a" = [mkChange "deleted" pf]) ∧
    (∀ cf pf, lookupA (filesForDir ("/W" ++ ":") [("/W:/a", (⟨"/a", false, 3, 5, "E"⟩ : FileState))]) (("/W" ++ ":") ++ "/a") = some cf →
       lookupA (filesForDir ("/W" ++ ":") ([] : List (String × FileState))) (("/W" ++ ":") ++ "/a") = some pf →
       recordsFor (compareStatesRaw "/W" [] [("/W:/a", (⟨"/a", false, 3, 5, "E"⟩ : FileState))]) "/a"
         = (if cf.etag ≠ pf.etag ∨ cf.size ≠ pf.size ∨ cf.mtime ≠ pf.mtime
            then [mkChange "updated" cf] else [])) :=
  comparator_classification "/W" "/a" [] [("/W:/a", ⟨"/a", false, 3, 5, "E"⟩)]
    (by decide) (by decide) (by decide) (by decide)

/-! ## Facts about the move-reconciliation indexes -/

theorem lookupA_insertA {α : Type} (m : List (String × α)) (k k' : String) (v : α) :
    lookupA (insertA m k v) k' = if k = k' then some v else lookupA m k' := by
  induction m with
  | nil => simp [insertA, lookupA_cons]
  | cons p rest ih =>
    rw [insertA]
    by_cases hp : p.1 = k
    · rw [if_pos hp, lookupA_cons, lookupA_cons]
      by_cases hk : k = k'
      · simp [hk]
      · have : ¬(p.1 = k') := fun h => hk ((hp.symm.trans h))
        simp [hk, this]
    · rw [if_neg hp, lookupA_cons, lookupA_cons, ih]
      by_cases hk : k = k'
      · have : ¬(p.1 = k') := fun h => hp (h.trans hk.symm)
        simp [hk, this]
      · simp [hk]

theorem keysA_insertA_mem {α : Type} {m : List (String × α)} {k k' : String} {v : α}
    (h : k' ∈ keysA (insertA m k v)) : k' = k ∨ k' ∈ keysA m := by
  have h2 : lookupA (insertA m k v) k' ≠ none := by
    rw [Ne, lookupA_eq_none_iff]
    exact fun hc => hc h
  rw [lookupA_insertA] at h2
  by_cases hk : k = k'
  · exact Or.inl hk.symm
  · rw [if_neg hk] at h2
    rw [Ne, lookupA_eq_none_iff, not_not] at h2
    exact Or.inr h2

theorem keysA_insertA_nodup {α : Type} {m : List (String × α)} (k : String) (v : α)
    (hnd : (keysA m).Nodup) : (keysA (insertA m k v)).Nodup := by
  induction m with
  | nil => simp [insertA, keysA]
  | cons p rest ih =>
    simp only [keysA, List.map_cons, List.nodup_cons] at hnd
    rw [insertA]
    by_cases hp : p.1 = k
    · rw [if_pos hp]
      simp only [keysA, List.map_cons, List.nodup_cons]
      exact ⟨hp ▸ hnd.1, hnd.2⟩
    · rw [if_neg hp]
      simp only [keysA, List.map_cons, List.nodup_cons]
      refine ⟨?_, ih hnd.2⟩
      intro hmem
      rcases keysA_insertA_mem (by simpa [keysA] using hmem) with h | h
      · exact hp h
      · exact hnd.1 (by simpa [keysA] using h)

/-- Any key produced by the ETag index belongs to the underlying list, is
move-eligible and carries exactly that ETag. -/
theorem buildETagIdx_lookup {l : List (String × FileState)} {e k : String}
    (h : lookupA (buildETagIdx l) e = some k) :
    ∃ f, (k, f) ∈ l ∧ f.etag = e ∧ moveElig f = true := by
  rw [buildETagIdx] at h
  suffices H : ∀ (m : List (String × String)),
      lookupA (l.foldl (fun m q =>
        if moveElig q.2 then
          (if q.2.etag = "" then m else insertA m q.2.etag q.1)
        else m) m) e = some k →
      (∃ f, (k, f) ∈ l ∧ f.etag = e ∧ moveElig f = true) ∨ lookupA m e = some k by
    rcases H [] h with h1 | h1
    · exact h1
    · simp at h1
  clear h
  intro m
  induction l generalizing m with
  | nil => exact fun hm => Or.inr hm
  | cons q rest ih =>
    intro hm
    rw [List.foldl_cons] at hm
    rcases ih _ hm with h1 | h1
    · rcases h1 with ⟨f, hf, he, hel⟩
      exact Or.inl ⟨f, List.mem_cons_of_mem _ hf, he, hel⟩
    · by_cases hel : moveElig q.2
      · rw [if_pos hel] at h1
        by_cases hq : q.2.etag = ""
        · rw [if_pos hq] at h1
          exact Or.inr h1
        · rw [if_neg hq, lookupA_insertA] at h1
          by_cases hke : q.2.etag = e
          · rw [if_pos hke] at h1
            cases h1
            exact Or.inl ⟨q.2, by simp, hke, hel⟩
          · rw [if_neg hke] at h1
            exact Or.inr h1
      · rw [if_neg hel] at h1
        exact Or.inr h1

/-- Every key listed under a size in the size index belongs to the
underlying list with exactly that size, and is move-eligible. -/
theorem buildSizeIdx_lookup {l : List (String × FileState)} {s : Int} {ks : List String}
    (h : lookupZ (buildSizeIdx l) s = some ks) :
    ∀ k ∈ ks, ∃ f, (k, f) ∈ l ∧ f.size = s ∧ moveElig f = true := by
  rw [buildSizeIdx] at h
  suffices H : ∀ (m : List (Int × List String)),
      lookupZ (l.foldl (fun m q =>
        if moveElig q.2 then appendZ m q.2.size q.1 else m) m) s = some ks →
      (∀ k ∈ ks, (∃ f, (k, f) ∈ l ∧ f.size = s ∧ moveElig f = true) ∨
        ∃ ks', lookupZ m s = some ks' ∧ k ∈ ks') by
    intro k hk
    rcases H [] h k hk with h1 | h1
    · exact h1
    · rcases h1 with ⟨ks', hks', _⟩
      simp [lookupZ] at hks'
  clear h
  intro m
  induction l generalizing m with
  | nil =>
    intro hm k hk
    exact Or.inr ⟨ks, hm, hk⟩
  | cons q rest ih =>
    intro hm
    rw [List.foldl_cons] at hm
    intro k hk
    rcases ih _ hm k hk with h1 | h1
    · rcases h1 with ⟨f, hf, hs, hel⟩
      exact Or.inl ⟨f, List.mem_cons_of_mem _ hf, hs, hel⟩
    · rcases h1 with ⟨ks', hks', hkm⟩
      by_cases hel : moveElig q.2
      · rw [if_pos hel] at hks'
        -- lookupZ (appendZ m q.2.size q.1) s = some ks'
        have hz : ∀ (m : List (Int × List String)),
            lookupZ (appendZ m q.2.size q.1) s = some ks' →
            (q.2.size = s ∧ ∃ old, ks' = old ++ [q.1] ∧ (lookupZ m s = some old ∨ (old = [] ∧ lookupZ m s = none)))
              ∨ (lookupZ m s = some ks') := by
          intro m0
          induction m0 with
          | nil =>
            intro hh
            rw [appendZ, lookupZ] at hh
            by_cases hqs : q.2.size = s
            · rw [if_pos hqs] at hh
              cases hh
              exact Or.inl ⟨hqs, [], rfl, Or.inr ⟨rfl, rfl⟩⟩
            · rw [if_neg hqs] at hh
              simp [lookupZ] at hh
          | cons p0 rest0 ih0 =>
            intro hh
            rw [appendZ] at hh
            by_cases hp0 : p0.1 = q.2.size
            · rw [if_pos hp0] at hh
              rw [lookupZ] at hh
              by_cases hqs : q.2.size = s
              · rw [if_pos hqs] at hh
                cases hh
                exact Or.inl ⟨hqs, p0.2, rfl, Or.inl (by
                  rw [lookupZ, if_pos (hp0.trans hqs)])⟩
              · rw [if_neg hqs] at hh
                right
                rw [lookupZ, if_neg (fun h => hqs (hp0 ▸ h : q.2.size = s))]
                exact hh
            · rw [if_neg hp0] at hh
              rw [lookupZ] at hh
              by_cases hps : p0.1 = s
              · rw [if_pos hps] at hh
                right
                rw [lookupZ, if_pos hps]
                exact hh
              · rw [if_neg hps] at hh
                rcases ih0 hh with h2 | h2
                · rcases h2 with ⟨hqs, old, hold, h3⟩
                  refine Or.inl ⟨hqs, old, hold, ?_⟩
                  rcases h3 with h3 | h3
                  · exact Or.inl (by rw [lookupZ, if_neg hps]; exact h3)
                  · exact Or.inr ⟨h3.1, by rw [lookupZ, if_neg hps]; exact h3.2⟩
                · right
                  rw [lookupZ, if_neg hps]
                  exact h2
        rcases hz m hks' with h2 | h2
        · rcases h2 with ⟨hqs, old, hold, h3⟩
          subst hold
          rcases List.mem_append.mp hkm with hko | hko
          · rcases h3 with h3 | h3
            · exact Or.inr ⟨old, h3, hko⟩
            · rw [h3.1] at hko
              simp at hko
          · simp at hko
            subst hko
            exact Or.inl ⟨q.2, by simp, hqs, hel⟩
        · exact Or.inr ⟨ks', h2, hkm⟩
      · rw [if_neg hel] at hks'
        exact Or.inr ⟨ks', hks', hkm⟩

/-- Keys looked up in the ETag index determine the ETag (the index is
injective on a duplicate-free underlying list). -/
theorem buildETagIdx_inj {l : List (String × FileState)} (hnd : (keysA l).Nodup)
    {e1 e2 k : String} (h1 : lookupA (buildETagIdx l) e1 = some k)
    (h2 : lookupA (buildETagIdx l) e2 = some k) : e1 = e2 := by
  obtain ⟨f1, hf1, he1, _⟩ := buildETagIdx_lookup h1
  obtain ⟨f2, hf2, he2, _⟩ := buildETagIdx_lookup h2
  have := (lookupA_of_mem hnd hf1).symm.trans (lookupA_of_mem hnd hf2)
  cases this
  rw [← he1, ← he2]

/-! ## recordsFor / removeChange algebra -/

theorem recordsFor_cons (c : Change) (cs : List Change) (p : String) :
    recordsFor (c :: cs) p = (if c.path = p then [c] else []) ++ recordsFor cs p := by
  rw [recordsFor, List.filter_cons]
  by_cases h : c.path = p <;> simp [h, recordsFor]

theorem removeChange_cons (c : Change) (cs : List Change) (t p' : String) :
    removeChange (c :: cs) t p'
      = (if c.type = t ∧ c.path = p' then [] else [c]) ++ removeChange cs t p' := by
  rw [removeChange, List.filter_cons]
  by_cases h : c.type = t ∧ c.path = p' <;> simp [h, removeChange]

theorem removeChange_append (cs ds : List Change) (t p' : String) :
    removeChange (cs ++ ds) t p' = removeChange cs t p' ++ removeChange ds t p' := by
  simp [removeChange]

theorem recordsFor_removeChange_comm (cs : List Change) (t p' p : String) :
    recordsFor (removeChange cs t p') p = removeChange (recordsFor cs p) t p' := by
  induction cs with
  | nil => rfl
  | cons c rest ih =>
    rw [removeChange_cons, recordsFor_append, recordsFor_cons, removeChange_append, ih]
    congr 1
    by_cases hA : c.type = t <;> by_cases hB : c.path = p' <;> by_cases h2 : c.path = p <;>
      simp_all [recordsFor, removeChange]

theorem mem_recordsFor_path {c : Change} {cs : List Change} {p : String}
    (h : c ∈ recordsFor cs p) : c.path = p := by
  rw [recordsFor, List.mem_filter] at h
  simpa using h.2

theorem removeChange_eq_self {l : List Change} {t p' : String}
    (h : ∀ c ∈ l, c.path ≠ p') : removeChange l t p' = l := by
  rw [removeChange]
  apply List.filter_eq_self.mpr
  intro c hc
  simp [h c hc]

theorem recordsFor_removeChange_ne (cs : List Change) (t p' p : String) (hne : p' ≠ p) :
    recordsFor (removeChange cs t p') p = recordsFor cs p := by
  rw [recordsFor_removeChange_comm]
  exact removeChange_eq_self (fun c hc h => hne ((mem_recordsFor_path hc ▸ h : p = p')).symm)

theorem recordsFor_snoc (cs : List Change) (c : Change) (p : String) :
    recordsFor (cs ++ [c]) p = recordsFor cs p ++ (if c.path = p then [c] else []) := by
  rw [recordsFor_append, recordsFor_cons]
  simp [recordsFor]

/-! ## Behaviour of the Pass 1 fold -/

/-- Frame property of Pass 1: iterations whose touched paths avoid `p`
leave the records concerning `p` unchanged. -/
theorem pass1_fold_frame (df cf : List (String × FileState))
    (crIdx : List (String × String)) (L : List (String × String))
    (acc : List Change × List String) (p : String)
    (hL : ∀ q ∈ L, ∀ ck, lookupA crIdx q.1 = some ck →
      ((lookupA df q.2).getD default).path ≠ p ∧
      ((lookupA cf ck).getD default).path ≠ p) :
    recordsFor (L.foldl (pass1Step df cf crIdx) acc).1 p = recordsFor acc.1 p := by
  induction L generalizing acc with
  | nil => rfl
  | cons q rest ih =>
    rw [List.foldl_cons, ih _ (fun r hr => hL r (List.mem_cons_of_mem _ hr))]
    cases hck : lookupA crIdx q.1 with
    | none => simp [pass1Step, hck]
    | some ck =>
      obtain ⟨h1, h2⟩ := hL q (List.mem_cons_self _ _) ck hck
      simp only [pass1Step, hck]
      rw [recordsFor_snoc, recordsFor_removeChange_ne _ _ _ _ h1,
        recordsFor_removeChange_ne _ _ _ _ h2]
      simp [movedOf, h2]

/-- The matched-keys accumulator of Pass 1 only grows. -/
theorem pass1_fold_matched_mono (df cf : List (String × FileState))
    (crIdx : List (String × String)) (L : List (String × String))
    (acc : List Change × List String) {k : String} (hk : k ∈ acc.2) :
    k ∈ (L.foldl (pass1Step df cf crIdx) acc).2 := by
  induction L generalizing acc with
  | nil => exact hk
  | cons q rest ih =>
    rw [List.foldl_cons]
    apply ih
    cases hck : lookupA crIdx q.1 with
    | none => simp [pass1Step, hck, hk]
    | some ck => simp [pass1Step, hck, hk]

/-- Every iteration of Pass 1 whose ETag also indexes a created key marks
both keys as consumed. -/
theorem pass1_fold_fired_matched (df cf : List (String × FileState))
    (crIdx : List (String × String)) (L : List (String × String))
    (acc : List Change × List String) {q : String × String} {ck : String}
    (hq : q ∈ L) (hck : lookupA crIdx q.1 = some ck) :
    q.2 ∈ (L.foldl (pass1Step df cf crIdx) acc).2 ∧
    ck ∈ (L.foldl (pass1Step df cf crIdx) acc).2 := by
  induction L generalizing acc with
  | nil => simp at hq
  | cons r rest ih =>
    rw [List.foldl_cons]
    rcases List.mem_cons.mp hq with h | h
    · subst h
      constructor
      · apply pass1_fold_matched_mono
        simp [pass1Step, hck]
      · apply pass1_fold_matched_mono
        simp [pass1Step, hck]
    · exact ih _ h

/-- Conversely, every key marked as consumed by Pass 1 comes from an
iteration that fired. -/
theorem pass1_fold_matched_sources (df cf : List (String × FileState))
    (crIdx : List (String × String)) (L : List (String × String))
    (acc : List Change × List String) {k : String}
    (hk : k ∈ (L.foldl (pass1Step df cf crIdx) acc).2) :
    k ∈ acc.2 ∨ ∃ q ∈ L, ∃ ck, lookupA crIdx q.1 = some ck ∧ (k = q.2 ∨ k = ck) := by
  induction L generalizing acc with
  | nil => exact Or.inl hk
  | cons q rest ih =>
    rw [List.foldl_cons] at hk
    rcases ih _ hk with h | h
    · cases hck : lookupA crIdx q.1 with
      | none =>
        rw [pass1Step, hck] at h
        exact Or.inl h
      | some ck =>
        simp only [pass1Step, hck] at h
        rcases List.mem_append.mp h with h | h
        · exact Or.inl h
        · right
          refine ⟨q, List.mem_cons_self _ _, ck, hck, ?_⟩
          simpa using h
    · rcases h with ⟨r, hr, ck', hck', hor⟩
      exact Or.inr ⟨r, List.mem_cons_of_mem _ hr, ck', hck', hor⟩

/-! ## Behaviour of the Pass 2 fold -/

/-- Frame property of Pass 2: iterations whose touched paths avoid `p`
leave the records concerning `p` unchanged. -/
theorem pass2_fold_frame (matched : List String)
    (df2 cf2 : List (String × FileState)) (crSize : List (Int × List String))
    (L : List (Int × List String)) (cs : List Change) (p : String)
    (hL : ∀ q ∈ L, ∀ crKeys, lookupZ crSize q.1 = some crKeys →
      q.2.length = 1 → crKeys.length = 1 →
      q.2.headD "" ∉ matched → crKeys.headD "" ∉ matched →
      ((lookupA df2 (q.2.headD "")).getD default).path ≠ p ∧
      ((lookupA cf2 (crKeys.headD "")).getD default).path ≠ p) :
    recordsFor (L.foldl (pass2Step matched df2 cf2 crSize) cs) p = recordsFor cs p := by
  induction L generalizing cs with
  | nil => rfl
  | cons q rest ih =>
    rw [List.foldl_cons, ih _ (fun r hr => hL r (List.mem_cons_of_mem _ hr))]
    cases hck : lookupZ crSize q.1 with
    | none => simp [pass2Step, hck]
    | some crKeys =>
      simp only [pass2Step, hck]
      by_cases hlen : q.2.length ≠ 1 ∨ crKeys.length ≠ 1
      · rw [if_pos hlen]
      · rw [if_neg hlen]
        push_neg at hlen
        by_cases hmem : q.2.headD "" ∈ matched ∨ crKeys.headD "" ∈ matched
        · rw [if_pos hmem]
        · rw [if_neg hmem]
          push_neg at hmem
          obtain ⟨h1, h2⟩ := hL q (List.mem_cons_self _ _) crKeys hck hlen.1 hlen.2 hmem.1 hmem.2
          by_cases ht : ((lookupA cf2 (crKeys.headD "")).getD default).mtime -
              ((lookupA df2 (q.2.headD "")).getD default).mtime < oneMinute ∧
              -oneMinute < ((lookupA cf2 (crKeys.headD "")).getD default).mtime -
              ((lookupA df2 (q.2.headD "")).getD default).mtime
          · rw [if_pos ht, recordsFor_snoc, recordsFor_removeChange_ne _ _ _ _ h1,
              recordsFor_removeChange_ne _ _ _ _ h2,
              if_neg (by simpa [movedOf] using h2), List.append_nil]
          · rw [if_neg ht]

/-- Lookup is unchanged by dropping consumed keys, for a non-consumed key. -/
theorem lookupA_filter_notmem {l : List (String × FileState)} {matched : List String}
    {k : String} (hk : k ∉ matched) :
    lookupA (l.filter (fun q => q.1 ∉ matched)) k = lookupA l k := by
  induction l with
  | nil => rfl
  | cons q rest ih =>
    rw [List.filter_cons]
    by_cases hq : q.1 ∈ matched
    · have hp : decide (q.1 ∉ matched) = false := by simp [hq]
      rw [hp]
      simp only [Bool.false_eq_true, if_false]
      have hne : ¬(q.1 = k) := fun h => hk (h ▸ hq)
      rw [ih, lookupA_cons, if_neg hne]
    · have hp : decide (q.1 ∉ matched) = true := by simp [hq]
      rw [hp]
      simp only [if_true]
      simp only [lookupA_cons]
      rw [ih]

/-! ## Facts about the deleted/created views -/

theorem keyDet {pre : String} {l : List (String × FileState)} (hinv : keyInv pre l)
    {k1 k2 : String} {f1 f2 : FileState}
    (h1 : (k1, f1) ∈ l) (h2 : (k2, f2) ∈ l) (hp : f1.path = f2.path) : k1 = k2 := by
  have e1 := hinv _ h1
  have e2 := hinv _ h2
  simp only at e1 e2
  rw [e1, e2, hp]

theorem mem_deletedOf_iff {prevD curD : List (String × FileState)}
    {k : String} {f : FileState} :
    (k, f) ∈ deletedOf prevD curD ↔ (k, f) ∈ prevD ∧ lookupA curD k = none := by
  simp [deletedOf, List.mem_filter, Option.isNone_iff_eq_none]

theorem mem_createdOf_iff {prevD curD : List (String × FileState)}
    {k : String} {f : FileState} :
    (k, f) ∈ createdOf prevD curD ↔ (k, f) ∈ curD ∧ lookupA prevD k = none := by
  simp [createdOf, List.mem_filter, Option.isNone_iff_eq_none]

/-- A deleted entry and a created entry never share a path: their composite
keys would coincide, yet one key is absent from the current view and the
other present. -/
theorem del_cr_path_ne {pre : String} {prevD curD : List (String × FileState)}
    (hinvP : keyInv pre prevD) (hinvC : keyInv pre curD)
    {k1 k2 : String} {f1 f2 : FileState}
    (hd : (k1, f1) ∈ deletedOf prevD curD) (hc : (k2, f2) ∈ createdOf prevD curD) :
    f1.path ≠ f2.path := by
  intro hp
  obtain ⟨hd1, hd2⟩ := mem_deletedOf_iff.mp hd
  obtain ⟨hc1, _⟩ := mem_createdOf_iff.mp hc
  have e1 := hinvP _ hd1
  have e2 := hinvC _ hc1
  simp only at e1 e2
  have hk : k1 = k2 := by rw [e1, e2, hp]
  rw [lookupA_eq_none_iff] at hd2
  exact hd2 (hk ▸ (List.mem_map.mpr ⟨(k2, f2), hc1, rfl⟩))

theorem del_del_key {pre : String} {prevD curD : List (String × FileState)}
    (hinvP : keyInv pre prevD) {k1 k2 : String} {f1 f2 : FileState}
    (h1 : (k1, f1) ∈ deletedOf prevD curD) (h2 : (k2, f2) ∈ deletedOf prevD curD)
    (hp : f1.path = f2.path) : k1 = k2 :=
  keyDet hinvP (mem_deletedOf_iff.mp h1).1 (mem_deletedOf_iff.mp h2).1 hp

theorem cr_cr_key {pre : String} {prevD curD : List (String × FileState)}
    (hinvC : keyInv pre curD) {k1 k2 : String} {f1 f2 : FileState}
    (h1 : (k1, f1) ∈ createdOf prevD curD) (h2 : (k2, f2) ∈ createdOf prevD curD)
    (hp : f1.path = f2.path) : k1 = k2 :=
  keyDet hinvC (mem_createdOf_iff.mp h1).1 (mem_createdOf_iff.mp h2).1 hp

theorem keysA_deletedOf_nodup {prevD curD : List (String × FileState)}
    (hnd : (keysA prevD).Nodup) : (keysA (deletedOf prevD curD)).Nodup :=
  keysA_filter_nodup hnd

theorem keysA_createdOf_nodup {prevD curD : List (String × FileState)}
    (hnd : (keysA curD).Nodup) : (keysA (createdOf prevD curD)).Nodup :=
  keysA_filter_nodup hnd

/-- The ETag index never repeats an ETag key. -/
theorem buildETagIdx_nodup (l : List (String × FileState)) :
    (keysA (buildETagIdx l)).Nodup := by
  rw [buildETagIdx]
  suffices H : ∀ (m : List (String × String)), (keysA m).Nodup →
      (keysA (l.foldl (fun m q =>
        if moveElig q.2 then
          (if q.2.etag = "" then m else insertA m q.2.etag q.1)
        else m) m)).Nodup by
    exact H [] (by simp [keysA])
  intro m
  induction l generalizing m with
  | nil => exact fun h => h
  | cons q rest ih =>
    intro hm
    rw [List.foldl_cons]
    apply ih
    by_cases hel : moveElig q.2
    · rw [if_pos hel]
      by_cases hq : q.2.etag = ""
      · rw [if_pos hq]; exact hm
      · rw [if_neg hq]; exact keysA_insertA_nodup _ _ hm
    · rw [if_neg hel]; exact hm

theorem lookupZ_eq_none_iff {α : Type} {m : List (Int × α)} {k : Int} :
    lookupZ m k = none ↔ k ∉ keysZ m := by
  induction m with
  | nil => simp [keysZ, lookupZ]
  | cons p rest ih =>
    rw [lookupZ]
    by_cases hk : p.1 = k
    · simp [hk, keysZ]
    · rw [if_neg hk, ih]
      have hk' : ¬(k = p.1) := fun hke => hk hke.symm
      simp [keysZ, List.mem_cons, hk']

theorem lookupZ_of_mem {α : Type} {m : List (Int × α)} {k : Int} {v : α}
    (hnd : (keysZ m).Nodup) (h : (k, v) ∈ m) : lookupZ m k = some v := by
  induction m with
  | nil => simp at h
  | cons p rest ih =>
    simp only [keysZ, List.map_cons, List.nodup_cons] at hnd
    rcases List.mem_cons.mp h with h1 | h1
    · rw [← h1]
      simp [lookupZ]
    · rw [lookupZ]
      by_cases hk : p.1 = k
      · exfalso
        apply hnd.1
        rw [hk]
        exact List.mem_map.mpr ⟨(k, v), h1, rfl⟩
      · rw [if_neg hk]
        exact ih hnd.2 h1

theorem keysZ_appendZ_nodup {m : List (Int × List String)} (s : Int) (k : String)
    (hnd : (keysZ m).Nodup) : (keysZ (appendZ m s k)).Nodup := by
  induction m with
  | nil => simp [appendZ, keysZ]
  | cons p rest ih =>
    simp only [keysZ, List.map_cons, List.nodup_cons] at hnd
    rw [appendZ]
    by_cases hp : p.1 = s
    · rw [if_pos hp]
      simp only [keysZ, List.map_cons, List.nodup_cons]
      exact ⟨hp ▸ hnd.1, hnd.2⟩
    · rw [if_neg hp]
      simp only [keysZ, List.map_cons, List.nodup_cons]
      refine ⟨?_, ih hnd.2⟩
      intro hmem
      have h2 : lookupZ (appendZ rest s k) p.1 ≠ none := by
        rw [Ne, lookupZ_eq_none_iff]
        exact fun hc => hc (by simpa [keysZ] using hmem)
      have hform : ∀ (m0 : List (Int × List String)), lookupZ (appendZ m0 s k) p.1 ≠ none →
          p.1 = s ∨ lookupZ m0 p.1 ≠ none := by
        intro m0
        induction m0 with
        | nil =>
          intro hh
          rw [appendZ, lookupZ] at hh
          by_cases hs : s = p.1
          · exact Or.inl hs.symm
          · rw [if_neg hs] at hh
            simp [lookupZ] at hh
        | cons p0 rest0 ih0 =>
          intro hh
          rw [appendZ] at hh
          by_cases hp0 : p0.1 = s
          · rw [if_pos hp0, lookupZ] at hh
            by_cases hs : s = p.1
            · exact Or.inl hs.symm
            · rw [if_neg hs] at hh
              right
              rw [lookupZ, if_neg (fun hc => hs (hp0 ▸ hc : s = p.1))]
              exact hh
          · rw [if_neg hp0, lookupZ] at hh
            by_cases hps : p0.1 = p.1
            · right
              rw [lookupZ, if_pos hps]
              rw [if_pos hps] at hh
              exact hh
            · rw [if_neg hps] at hh
              rcases ih0 hh with h | h
              · exact Or.inl h
              · right
                rw [lookupZ, if_neg hps]
                exact h
      rcases hform rest h2 with h | h
      · exact hp h
      · rw [Ne, lookupZ_eq_none_iff, not_not] at h
        exact hnd.1 (by simpa [keysZ] using h)

/-- The size index never repeats a size key. -/
theorem buildSizeIdx_nodup (l : List (String × FileState)) :
    (keysZ (buildSizeIdx l)).Nodup := by
  rw [buildSizeIdx]
  suffices H : ∀ (m : List (Int × List String)), (keysZ m).Nodup →
      (keysZ (l.foldl (fun m q =>
        if moveElig q.2 then appendZ m q.2.size q.1 else m) m)).Nodup by
    exact H [] (by simp [keysZ])
  intro m
  induction l generalizing m with
  | nil => exact fun h => h
  | cons q rest ih =>
    intro hm
    rw [List.foldl_cons]
    apply ih
    by_cases hel : moveElig q.2
    · rw [if_pos hel]; exact keysZ_appendZ_nodup _ _ hm
    · rw [if_neg hel]; exact hm

theorem eq_singleton_of_length_one {α : Type} {l : List α} (d : α)
    (h : l.length = 1) : l = [l.headD d] := by
  cases l with
  | nil => simp at h
  | cons a rest =>
    cases rest with
    | nil => rfl
    | cons b rest' => simp at h

/-- `compareStates` is its Pass 1 output post-processed by the Pass 2 fold. -/
theorem compareStates_eq_pass2 (directory : String)
    (prevFiles curFiles : List (String × FileState)) :
    compareStates directory prevFiles curFiles
      = (buildSizeIdx (delView directory prevFiles curFiles)).foldl
          (pass2Step (pass1Of directory prevFiles curFiles).2
            ((delView directory prevFiles curFiles).filter
              (fun q => q.1 ∉ (pass1Of directory prevFiles curFiles).2))
            ((crView directory prevFiles curFiles).filter
              (fun q => q.1 ∉ (pass1Of directory prevFiles curFiles).2))
            (buildSizeIdx (crView directory prevFiles curFiles)))
          (pass1Of directory prevFiles curFiles).1 := rfl

/-- A key present in the deleted view yields exactly one raw `deleted`
record at its path. -/
theorem recordsFor_raw_deleted (directory : String)
    (prevFiles curFiles : List (String × FileState))
    (hndp : (keysA prevFiles).Nodup) (hndc : (keysA curFiles).Nodup)
    (hip : ∀ q ∈ prevFiles, goStartsWith q.1 (directory ++ ":") = true →
      q.1 = (directory ++ ":") ++ q.2.path)
    (hic : ∀ q ∈ curFiles, goStartsWith q.1 (directory ++ ":") = true →
      q.1 = (directory ++ ":") ++ q.2.path)
    {dk : String} {delF : FileState}
    (hdf : lookupA (delView directory prevFiles curFiles) dk = some delF) :
    recordsFor (compareStatesRaw directory prevFiles curFiles) delF.path
      = [mkChange "deleted" delF] := by
  have hmem := lookupA_mem hdf
  obtain ⟨hP, hno⟩ := mem_deletedOf_iff.mp hmem
  have hinvP := keyInv_filesForDir hip
  have e1 := hinvP _ hP
  simp only at e1
  have hndpD : (keysA (filesForDir (directory ++ ":") prevFiles)).Nodup :=
    keysA_filter_nodup hndp
  rw [compareRaw_recordsFor directory delF.path prevFiles curFiles hndp hndc hip hic]
  have hl : lookupA (filesForDir (directory ++ ":") prevFiles)
      ((directory ++ ":") ++ delF.path) = some delF := by
    rw [← e1]
    exact lookupA_of_mem hndpD hP
  have hcn : lookupA (filesForDir (directory ++ ":") curFiles)
      ((directory ++ ":") ++ delF.path) = none := by
    rw [← e1]
    exact hno
  rw [hl, hcn]

/-- A key present in the created view yields exactly one raw `created`
record at its path. -/
theorem recordsFor_raw_created (directory : String)
    (prevFiles curFiles : List (String × FileState))
    (hndp : (keysA prevFiles).Nodup) (hndc : (keysA curFiles).Nodup)
    (hip : ∀ q ∈ prevFiles, goStartsWith q.1 (directory ++ ":") = true →
      q.1 = (directory ++ ":") ++ q.2.path)
    (hic : ∀ q ∈ curFiles, goStartsWith q.1 (directory ++ ":") = true →
      q.1 = (directory ++ ":") ++ q.2.path)
    {ck : String} {crF : FileState}
    (hcf : lookupA (crView directory prevFiles curFiles) ck = some crF) :
    recordsFor (compareStatesRaw directory prevFiles curFiles) crF.path
      = [mkChange "created" crF] := by
  have hmem := lookupA_mem hcf
  obtain ⟨hC, hno⟩ := mem_createdOf_iff.mp hmem
  have hinvC := keyInv_filesForDir hic
  have e1 := hinvC _ hC
  simp only at e1
  have hndcD : (keysA (filesForDir (directory ++ ":") curFiles)).Nodup :=
    keysA_filter_nodup hndc
  rw [compareRaw_recordsFor directory crF.path prevFiles curFiles hndp hndc hip hic]
  have hl : lookupA (filesForDir (directory ++ ":") curFiles)
      ((directory ++ ":") ++ crF.path) = some crF := by
    rw [← e1]
    exact lookupA_of_mem hndcD hC
  have hpn : lookupA (filesForDir (directory ++ ":") prevFiles)
      ((directory ++ ":") ++ crF.path) = none := by
    rw [← e1]
    exact hno
  rw [hl, hpn]

/-- Paths touched by a Pass 1 iteration for an ETag other than `e` are
distinct from the paths of the pair matched at `e`. -/
theorem pass1_entry_paths_ne (directory : String)
    (prevFiles curFiles : List (String × FileState))
    (hndp : (keysA prevFiles).Nodup) (hndc : (keysA curFiles).Nodup)
    (hip : ∀ q ∈ prevFiles, goStartsWith q.1 (directory ++ ":") = true →
      q.1 = (directory ++ ":") ++ q.2.path)
    (hic : ∀ q ∈ curFiles, goStartsWith q.1 (directory ++ ":") = true →
      q.1 = (directory ++ ":") ++ q.2.path)
    {e dk ck : String} {delF crF : FileState}
    (he_d : lookupA (buildETagIdx (delView directory prevFiles curFiles)) e = some dk)
    (he_c : lookupA (buildETagIdx (crView directory prevFiles curFiles)) e = some ck)
    (hdf : lookupA (delView directory prevFiles curFiles) dk = some delF)
    (hcf : lookupA (crView directory prevFiles curFiles) ck = some crF)
    (q : String × String) (hq : q ∈ buildETagIdx (delView directory prevFiles curFiles))
    (hqe : q.1 ≠ e)
    (ck' : String)
    (hck' : lookupA (buildETagIdx (crView directory prevFiles curFiles)) q.1 = some ck') :
    ((lookupA (delView directory prevFiles curFiles) q.2).getD default).path ≠ crF.path ∧
    ((lookupA (delView directory prevFiles curFiles) q.2).getD default).path ≠ delF.path ∧
    ((lookupA (crView directory prevFiles curFiles) ck').getD default).path ≠ crF.path ∧
    ((lookupA (crView directory prevFiles curFiles) ck').getD default).path ≠ delF.path := by
  have hinvP := keyInv_filesForDir hip
  have hinvC := keyInv_filesForDir hic
  have hndDel : (keysA (delView directory prevFiles curFiles)).Nodup :=
    keysA_deletedOf_nodup (keysA_filter_nodup hndp)
  have hndCr : (keysA (crView directory prevFiles curFiles)).Nodup :=
    keysA_createdOf_nodup (keysA_filter_nodup hndc)
  have hdmem := lookupA_mem hdf
  have hcmem := lookupA_mem hcf
  -- the entry of the deleted index at q
  have hlq : lookupA (buildETagIdx (delView directory prevFiles curFiles)) q.1 = some q.2 := by
    obtain ⟨a, b⟩ := q
    exact lookupA_of_mem (buildETagIdx_nodup _) hq
  obtain ⟨f', hf'mem, hf'etag, _⟩ := buildETagIdx_lookup hlq
  obtain ⟨g', hg'mem, hg'etag, _⟩ := buildETagIdx_lookup hck'
  have hdl : lookupA (delView directory prevFiles curFiles) q.2 = some f' :=
    lookupA_of_mem hndDel hf'mem
  have hcl : lookupA (crView directory prevFiles curFiles) ck' = some g' :=
    lookupA_of_mem hndCr hg'mem
  rw [hdl, hcl]
  simp only [Option.getD_some]
  refine ⟨?_, ?_, ?_, ?_⟩
  · exact del_cr_path_ne hinvP hinvC hf'mem hcmem
  · intro hpath
    have hk : q.2 = dk := del_del_key hinvP hf'mem hdmem hpath
    exact hqe (buildETagIdx_inj hndDel (hk ▸ hlq) he_d)
  · intro hpath
    have hk : ck' = ck := cr_cr_key hinvC hg'mem hcmem hpath
    exact hqe (buildETagIdx_inj hndCr (hk ▸ hck') he_c)
  · intro hpath
    exact del_cr_path_ne hinvP hinvC hdmem hg'mem hpath.symm

/-- Paths touched by a Pass 2 iteration never collide with the paths of a
pair whose keys were consumed by Pass 1. -/
theorem pass2_entry_paths_ne (directory : String)
    (prevFiles curFiles : List (String × FileState))
    (hndp : (keysA prevFiles).Nodup) (hndc : (keysA curFiles).Nodup)
    (hip : ∀ q ∈ prevFiles, goStartsWith q.1 (directory ++ ":") = true →
      q.1 = (directory ++ ":") ++ q.2.path)
    (hic : ∀ q ∈ curFiles, goStartsWith q.1 (directory ++ ":") = true →
      q.1 = (directory ++ ":") ++ q.2.path)
    (matched : List String) {dk ck : String} {delF crF : FileState}
    (hdf : lookupA (delView directory prevFiles curFiles) dk = some delF)
    (hcf : lookupA (crView directory prevFiles curFiles) ck = some crF)
    (hdkm : dk ∈ matched) (hckm : ck ∈ matched)
    (q : Int × List String) (hq : q ∈ buildSizeIdx (delView directory prevFiles curFiles))
    (crKeys : List String)
    (hck : lookupZ (buildSizeIdx (crView directory prevFiles curFiles)) q.1 = some crKeys)
    (hl1 : q.2.length = 1) (hl2 : crKeys.length = 1)
    (hm1 : q.2.headD "" ∉ matched) (hm2 : crKeys.headD "" ∉ matched) :
    ((lookupA ((delView directory prevFiles curFiles).filter
        (fun r => r.1 ∉ matched)) (q.2.headD "")).getD default).path ≠ crF.path ∧
    ((lookupA ((delView directory prevFiles curFiles).filter
        (fun r => r.1 ∉ matched)) (q.2.headD "")).getD default).path ≠ delF.path ∧
    ((lookupA ((crView directory prevFiles curFiles).filter
        (fun r => r.1 ∉ matched)) (crKeys.headD "")).getD default).path ≠ crF.path ∧
    ((lookupA ((crView directory prevFiles curFiles).filter
        (fun r => r.1 ∉ matched)) (crKeys.headD "")).getD default).path ≠ delF.path := by
  have hinvP := keyInv_filesForDir hip
  have hinvC := keyInv_filesForDir hic
  have hndDel : (keysA (delView directory prevFiles curFiles)).Nodup :=
    keysA_deletedOf_nodup (keysA_filter_nodup hndp)
  have hndCr : (keysA (crView directory prevFiles curFiles)).Nodup :=
    keysA_createdOf_nodup (keysA_filter_nodup hndc)
  have hdmem := lookupA_mem hdf
  have hcmem := lookupA_mem hcf
  have hlq : lookupZ (buildSizeIdx (delView directory prevFiles curFiles)) q.1 = some q.2 := by
    obtain ⟨a, b⟩ := q
    exact lookupZ_of_mem (buildSizeIdx_nodup _) hq
  have hdin : q.2.headD "" ∈ q.2 := by
    rw [eq_singleton_of_length_one "" hl1]
    simp
  have hcin : crKeys.headD "" ∈ crKeys := by
    rw [eq_singleton_of_length_one "" hl2]
    simp
  obtain ⟨f', hf'mem, _, _⟩ := buildSizeIdx_lookup hlq _ hdin
  obtain ⟨g', hg'mem, _, _⟩ := buildSizeIdx_lookup hck _ hcin
  have hdl : lookupA ((delView directory prevFiles curFiles).filter
      (fun r => r.1 ∉ matched)) (q.2.headD "") = some f' := by
    rw [lookupA_filter_notmem hm1]
    exact lookupA_of_mem hndDel hf'mem
  have hcl : lookupA ((crView directory prevFiles curFiles).filter
      (fun r => r.1 ∉ matched)) (crKeys.headD "") = some g' := by
    rw [lookupA_filter_notmem hm2]
    exact lookupA_of_mem hndCr hg'mem
  rw [hdl, hcl]
  simp only [Option.getD_some]
  refine ⟨?_, ?_, ?_, ?_⟩
  · exact del_cr_path_ne hinvP hinvC hf'mem hcmem
  · intro hpath
    have hk : q.2.headD "" = dk := del_del_key hinvP hf'mem hdmem hpath
    exact hm1 (hk ▸ hdkm)
  · intro hpath
    have hk : crKeys.headD "" = ck := cr_cr_key hinvC hg'mem hcmem hpath
    exact hm2 (hk ▸ hckm)
  · intro hpath
    exact del_cr_path_ne hinvP hinvC hdmem hg'mem hpath.symm

/-- C3: Pass 1 of move reconciliation. For every ETag present in both the
deleted-key index and the created-key index (both restricted to
non-directory, positive-size entries with non-empty ETag), the raw
`created` and `deleted` records of the two keys disappear from the change
list and are replaced by a single `moved` record with `path` the created
entry's path, `old_path` the deleted entry's path, and the created entry's
size, mtime and is_dir; both keys are marked consumed. -/
theorem move_pass1_etag_rewrite
    (directory e dk ck : String) (delF crF : FileState)
    (prevFiles curFiles : List (String × FileState))
    (hndp : (keysA prevFiles).Nodup) (hndc : (keysA curFiles).Nodup)
    (hip : ∀ q ∈ prevFiles, goStartsWith q.1 (directory ++ ":") = true →
      q.1 = (directory ++ ":") ++ q.2.path)
    (hic : ∀ q ∈ curFiles, goStartsWith q.1 (directory ++ ":") = true →
      q.1 = (directory ++ ":") ++ q.2.path)
    (he_d : lookupA (buildETagIdx (delView directory prevFiles curFiles)) e = some dk)
    (he_c : lookupA (buildETagIdx (crView directory prevFiles curFiles)) e = some ck)
    (hdf : lookupA (delView directory prevFiles curFiles) dk = some delF)
    (hcf : lookupA (crView directory prevFiles curFiles) ck = some crF) :
    recordsFor (compareStates directory prevFiles curFiles) crF.path = [movedOf delF crF] ∧
    recordsFor (compareStates directory prevFiles curFiles) delF.path = [] ∧
    dk ∈ (pass1Of directory prevFiles curFiles).2 ∧
    ck ∈ (pass1Of directory prevFiles curFiles).2 := by
  have hinvP := keyInv_filesForDir hip
  have hinvC := keyInv_filesForDir hic
  have hdmem := lookupA_mem hdf
  have hcmem := lookupA_mem hcf
  have hpathne : delF.path ≠ crF.path := del_cr_path_ne hinvP hinvC hdmem hcmem
  have hpathne' : crF.path ≠ delF.path := fun h => hpathne h.symm
  have hmatched :=
    pass1_fold_fired_matched (delView directory prevFiles curFiles)
      (crView directory prevFiles curFiles)
      (buildETagIdx (crView directory prevFiles curFiles))
      (buildETagIdx (delView directory prevFiles curFiles))
      (compareStatesRaw directory prevFiles curFiles, []) (lookupA_mem he_d) he_c
  obtain ⟨L1, L2, hsplit⟩ := List.append_of_mem (lookupA_mem he_d)
  have hnodupIdx := buildETagIdx_nodup (delView directory prevFiles curFiles)
  rw [hsplit] at hnodupIdx
  have hmapnd : (L1.map Prod.fst ++ e :: L2.map Prod.fst).Nodup := by
    simpa [keysA] using hnodupIdx
  have he1 : ∀ r ∈ L1, r.1 ≠ e := by
    intro r hr hre
    rcases List.nodup_append.mp hmapnd with ⟨_, _, hdisj⟩
    exact hdisj (hre ▸ List.mem_map.mpr ⟨r, hr, rfl⟩) (List.mem_cons_self _ _)
  have he2 : ∀ r ∈ L2, r.1 ≠ e := by
    intro r hr hre
    rcases List.nodup_append.mp hmapnd with ⟨_, hnd2, _⟩
    rcases List.nodup_cons.mp hnd2 with ⟨hne, _⟩
    exact hne (hre ▸ List.mem_map.mpr ⟨r, hr, rfl⟩)
  have hmem1 : ∀ r ∈ L1, r ∈ buildETagIdx (delView directory prevFiles curFiles) := by
    intro r hr
    rw [hsplit]
    exact List.mem_append.mpr (Or.inl hr)
  have hmem2 : ∀ r ∈ L2, r ∈ buildETagIdx (delView directory prevFiles curFiles) := by
    intro r hr
    rw [hsplit]
    exact List.mem_append.mpr (Or.inr (List.mem_cons_of_mem _ hr))
  have hfr := fun (r : String × String) hr hre ck' hck' =>
    pass1_entry_paths_ne directory prevFiles curFiles hndp hndc hip hic
      he_d he_c hdf hcf r hr hre ck' hck'
  have hL1C : ∀ r ∈ L1, ∀ ck',
      lookupA (buildETagIdx (crView directory prevFiles curFiles)) r.1 = some ck' →
      ((lookupA (delView directory prevFiles curFiles) r.2).getD default).path ≠ crF.path ∧
      ((lookupA (crView directory prevFiles curFiles) ck').getD default).path ≠ crF.path :=
    fun r hr ck' hck' =>
      ⟨(hfr r (hmem1 r hr) (he1 r hr) ck' hck').1, (hfr r (hmem1 r hr) (he1 r hr) ck' hck').2.2.1⟩
  have hL1D : ∀ r ∈ L1, ∀ ck',
      lookupA (buildETagIdx (crView directory prevFiles curFiles)) r.1 = some ck' →
      ((lookupA (delView directory prevFiles curFiles) r.2).getD default).path ≠ delF.path ∧
      ((lookupA (crView directory prevFiles curFiles) ck').getD default).path ≠ delF.path :=
    fun r hr ck' hck' =>
      ⟨(hfr r (hmem1 r hr) (he1 r hr) ck' hck').2.1, (hfr r (hmem1 r hr) (he1 r hr) ck' hck').2.2.2⟩
  have hL2C : ∀ r ∈ L2, ∀ ck',
      lookupA (buildETagIdx (crView directory prevFiles curFiles)) r.1 = some ck' →
      ((lookupA (delView directory prevFiles curFiles) r.2).getD default).path ≠ crF.path ∧
      ((lookupA (crView directory prevFiles curFiles) ck').getD default).path ≠ crF.path :=
    fun r hr ck' hck' =>
      ⟨(hfr r (hmem2 r hr) (he2 r hr) ck' hck').1, (hfr r (hmem2 r hr) (he2 r hr) ck' hck').2.2.1⟩
  have hL2D : ∀ r ∈ L2, ∀ ck',
      lookupA (buildETagIdx (crView directory prevFiles curFiles)) r.1 = some ck' →
      ((lookupA (delView directory prevFiles curFiles) r.2).getD default).path ≠ delF.path ∧
      ((lookupA (crView directory prevFiles curFiles) ck').getD default).path ≠ delF.path :=
    fun r hr ck' hck' =>
      ⟨(hfr r (hmem2 r hr) (he2 r hr) ck' hck').2.1, (hfr r (hmem2 r hr) (he2 r hr) ck' hck').2.2.2⟩
  have hstep1 : (pass1Step (delView directory prevFiles curFiles)
      (crView directory prevFiles curFiles)
      (buildETagIdx (crView directory prevFiles curFiles))
      (List.foldl (pass1Step (delView directory prevFiles curFiles)
        (crView directory prevFiles curFiles)
        (buildETagIdx (crView directory prevFiles curFiles)))
        (compareStatesRaw directory prevFiles curFiles, []) L1) (e, dk)).1
      = removeChange (removeChange
          (List.foldl (pass1Step (delView directory prevFiles curFiles)
            (crView directory prevFiles curFiles)
            (buildETagIdx (crView directory prevFiles curFiles)))
            (compareStatesRaw directory prevFiles curFiles, []) L1).1
          "created" crF.path) "deleted" delF.path ++ [movedOf delF crF] := by
    simp [pass1Step, he_c, hdf, hcf]
  have hp1C : recordsFor (pass1Of directory prevFiles curFiles).1 crF.path
      = [movedOf delF crF] := by
    simp only [pass1Of, pass1]
    rw [hsplit, List.foldl_append, List.foldl_cons]
    rw [pass1_fold_frame _ _ _ L2 _ _ hL2C]
    rw [hstep1, recordsFor_snoc, recordsFor_removeChange_ne _ _ _ _ hpathne,
      recordsFor_removeChange_comm]
    rw [pass1_fold_frame _ _ _ L1 _ _ hL1C]
    rw [recordsFor_raw_created directory prevFiles curFiles hndp hndc hip hic hcf]
    simp [removeChange, mkChange, movedOf]
  have hp1D : recordsFor (pass1Of directory prevFiles curFiles).1 delF.path = [] := by
    simp only [pass1Of, pass1]
    rw [hsplit, List.foldl_append, List.foldl_cons]
    rw [pass1_fold_frame _ _ _ L2 _ _ hL2D]
    rw [hstep1, recordsFor_snoc, if_neg (by simpa [movedOf] using hpathne'),
      List.append_nil, recordsFor_removeChange_comm,
      recordsFor_removeChange_ne _ _ _ _ hpathne']
    rw [pass1_fold_frame _ _ _ L1 _ _ hL1D]
    rw [recordsFor_raw_deleted directory prevFiles curFiles hndp hndc hip hic hdf]
    simp [removeChange, mkChange]
  have hP2 := fun (p : Int × List String) hq crKeys hck hl1 hl2 hm1 hm2 =>
    pass2_entry_paths_ne directory prevFiles curFiles hndp hndc hip hic
      (pass1Of directory prevFiles curFiles).2 hdf hcf hmatched.1 hmatched.2
      p hq crKeys hck hl1 hl2 hm1 hm2
  refine ⟨?_, ?_, hmatched.1, hmatched.2⟩
  · rw [compareStates_eq_pass2]
    rw [pass2_fold_frame _ _ _ _ _ _ _
      (fun q hq crKeys hck hl1 hl2 hm1 hm2 =>
        ⟨(hP2 q hq crKeys hck hl1 hl2 hm1 hm2).1,
         (hP2 q hq crKeys hck hl1 hl2 hm1 hm2).2.2.1⟩)]
    exact hp1C
  · rw [compareStates_eq_pass2]
    rw [pass2_fold_frame _ _ _ _ _ _ _
      (fun q hq crKeys hck hl1 hl2 hm1 hm2 =>
        ⟨(hP2 q hq crKeys hck hl1 hl2 hm1 hm2).2.1,
         (hP2 q hq crKeys hck hl1 hl2 hm1 hm2).2.2.2⟩)]
    exact hp1D

/-- Witness for C3 on the spec's S4 scenario (move detected via ETag). -/
theorem move_pass1_etag_rewrite_witness :
    recordsFor (compareStates "/W" [("/W:/a", (⟨"/a", false, 5, 0, "e"⟩ : FileState))]
        [("/W:/x", (⟨"/x", false, 5, 0, "e"⟩ : FileState))]) "/x"
      = [movedOf ⟨"/a", false, 5, 0, "e"⟩ ⟨"/x", false, 5, 0, "e"⟩] ∧
    recordsFor (compareStates "/W" [("/W:/a", (⟨"/a", false, 5, 0, "e"⟩ : FileState))]
        [("/W:/x", (⟨"/x", false, 5, 0, "e"⟩ : FileState))]) "/a" = [] ∧
    "/W:/a" ∈ (pass1Of "/W" [("/W:/a", (⟨"/a", false, 5, 0, "e"⟩ : FileState))]
        [("/W:/x", (⟨"/x", false, 5, 0, "e"⟩ : FileState))]).2 ∧
    "/W:/x" ∈ (pass1Of "/W" [("/W:/a", (⟨"/a", false, 5, 0, "e"⟩ : FileState))]
        [("/W:/x", (⟨"/x", false, 5, 0, "e"⟩ : FileState))]).2 :=
  move_pass1_etag_rewrite "/W" "e" "/W:/a" "/W:/x"
    ⟨"/a", false, 5, 0, "e"⟩ ⟨"/x", false, 5, 0, "e"⟩
    [("/W:/a", ⟨"/a", false, 5, 0, "e"⟩)] [("/W:/x", ⟨"/x", false, 5, 0, "e"⟩)]
    (by decide) (by decide) (by decide) (by decide)
    (by decide) (by decide) (by decide) (by decide)

theorem lookupZ_mem {α : Type} {m : List (Int × α)} {k : Int} {v : α}
    (h : lookupZ m k = some v) : (k, v) ∈ m := by
  induction m with
  | nil => simp [lookupZ] at h
  | cons p rest ih =>
    rw [lookupZ] at h
    by_cases hk : p.1 = k
    · obtain ⟨p1, p2⟩ := p
      simp only at hk
      subst hk
      simp at h
      subst h
      exact List.mem_cons_self _ _
    · rw [if_neg hk] at h
      exact List.mem_cons_of_mem _ (ih h)

/-- Paths touched by a Pass 1 iteration whose keys differ from `dk`/`ck`
are distinct from the paths stored under `dk` and `ck`. -/
theorem pass1_entry_paths_ne2 (directory : String)
    (prevFiles curFiles : List (String × FileState))
    (hndp : (keysA prevFiles).Nodup) (hndc : (keysA curFiles).Nodup)
    (hip : ∀ q ∈ prevFiles, goStartsWith q.1 (directory ++ ":") = true →
      q.1 = (directory ++ ":") ++ q.2.path)
    (hic : ∀ q ∈ curFiles, goStartsWith q.1 (directory ++ ":") = true →
      q.1 = (directory ++ ":") ++ q.2.path)
    {dk ck : String} {delF crF : FileState}
    (hdf : lookupA (delView directory prevFiles curFiles) dk = some delF)
    (hcf : lookupA (crView directory prevFiles curFiles) ck = some crF)
    (r : String × String) (hr : r ∈ buildETagIdx (delView directory prevFiles curFiles))
    (ck' : String)
    (hck' : lookupA (buildETagIdx (crView directory prevFiles curFiles)) r.1 = some ck')
    (hrd : r.2 ≠ dk) (hrc : ck' ≠ ck) :
    ((lookupA (delView directory prevFiles curFiles) r.2).getD default).path ≠ crF.path ∧
    ((lookupA (delView directory prevFiles curFiles) r.2).getD default).path ≠ delF.path ∧
    ((lookupA (crView directory prevFiles curFiles) ck').getD default).path ≠ crF.path ∧
    ((lookupA (crView directory prevFiles curFiles) ck').getD default).path ≠ delF.path := by
  have hinvP := keyInv_filesForDir hip
  have hinvC := keyInv_filesForDir hic
  have hndDel : (keysA (delView directory prevFiles curFiles)).Nodup :=
    keysA_deletedOf_nodup (keysA_filter_nodup hndp)
  have hndCr : (keysA (crView directory prevFiles curFiles)).Nodup :=
    keysA_createdOf_nodup (keysA_filter_nodup hndc)
  have hdmem := lookupA_mem hdf
  have hcmem := lookupA_mem hcf
  have hlq : lookupA (buildETagIdx (delView directory prevFiles curFiles)) r.1 = some r.2 := by
    obtain ⟨a, b⟩ := r
    exact lookupA_of_mem (buildETagIdx_nodup _) hr
  obtain ⟨f', hf'mem, _, _⟩ := buildETagIdx_lookup hlq
  obtain ⟨g', hg'mem, _, _⟩ := buildETagIdx_lookup hck'
  rw [lookupA_of_mem hndDel hf'mem, lookupA_of_mem hndCr hg'mem]
  simp only [Option.getD_some]
  refine ⟨del_cr_path_ne hinvP hinvC hf'mem hcmem, ?_, ?_,
    fun hpath => del_cr_path_ne hinvP hinvC hdmem hg'mem hpath.symm⟩
  · intro hpath
    exact hrd (del_del_key hinvP hf'mem hdmem hpath)
  · intro hpath
    exact hrc (cr_cr_key hinvC hg'mem hcmem hpath)

/-- Paths touched by a Pass 2 iteration at a size other than `s` are
distinct from the paths of the unique size-`s` pair. -/
theorem pass2_entry_paths_ne3 (directory : String)
    (prevFiles curFiles : List (String × FileState))
    (hndp : (keysA prevFiles).Nodup) (hndc : (keysA curFiles).Nodup)
    (hip : ∀ q ∈ prevFiles, goStartsWith q.1 (directory ++ ":") = true →
      q.1 = (directory ++ ":") ++ q.2.path)
    (hic : ∀ q ∈ curFiles, goStartsWith q.1 (directory ++ ":") = true →
      q.1 = (directory ++ ":") ++ q.2.path)
    (matched : List String) {s : Int} {dk ck : String} {delF crF : FileState}
    (hdf : lookupA (delView directory prevFiles curFiles) dk = some delF)
    (hcf : lookupA (crView directory prevFiles curFiles) ck = some crF)
    (hds : delF.size = s) (hcs : crF.size = s)
    (q : Int × List String) (hq : q ∈ buildSizeIdx (delView directory prevFiles curFiles))
    (hqs : q.1 ≠ s)
    (crKeys : List String)
    (hck : lookupZ (buildSizeIdx (crView directory prevFiles curFiles)) q.1 = some crKeys)
    (hl1 : q.2.length = 1) (hl2 : crKeys.length = 1)
    (hm1 : q.2.headD "" ∉ matched) (hm2 : crKeys.headD "" ∉ matched) :
    ((lookupA ((delView directory prevFiles curFiles).filter
        (fun r => r.1 ∉ matched)) (q.2.headD "")).getD default).path ≠ crF.path ∧
    ((lookupA ((delView directory prevFiles curFiles).filter
        (fun r => r.1 ∉ matched)) (q.2.headD "")).getD default).path ≠ delF.path ∧
    ((lookupA ((crView directory prevFiles curFiles).filter
        (fun r => r.1 ∉ matched)) (crKeys.headD "")).getD default).path ≠ crF.path ∧
    ((lookupA ((crView directory prevFiles curFiles).filter
        (fun r => r.1 ∉ matched)) (crKeys.headD "")).getD default).path ≠ delF.path := by
  have hinvP := keyInv_filesForDir hip
  have hinvC := keyInv_filesForDir hic
  have hndDel : (keysA (delView directory prevFiles curFiles)).Nodup :=
    keysA_deletedOf_nodup (keysA_filter_nodup hndp)
  have hndCr : (keysA (crView directory prevFiles curFiles)).Nodup :=
    keysA_createdOf_nodup (keysA_filter_nodup hndc)
  have hdmem := lookupA_mem hdf
  have hcmem := lookupA_mem hcf
  have hlq : lookupZ (buildSizeIdx (delView directory prevFiles curFiles)) q.1 = some q.2 := by
    obtain ⟨a, b⟩ := q
    exact lookupZ_of_mem (buildSizeIdx_nodup _) hq
  have hdin : q.2.headD "" ∈ q.2 := by
    rw [eq_singleton_of_length_one "" hl1]
    simp
  have hcin : crKeys.headD "" ∈ crKeys := by
    rw [eq_singleton_of_length_one "" hl2]
    simp
  obtain ⟨f', hf'mem, hf's, _⟩ := buildSizeIdx_lookup hlq _ hdin
  obtain ⟨g', hg'mem, hg's, _⟩ := buildSizeIdx_lookup hck _ hcin
  have hdl : lookupA ((delView directory prevFiles curFiles).filter
      (fun r => r.1 ∉ matched)) (q.2.headD "") = some f' := by
    rw [lookupA_filter_notmem hm1]
    exact lookupA_of_mem hndDel hf'mem
  have hcl : lookupA ((crView directory prevFiles curFiles).filter
      (fun r => r.1 ∉ matched)) (crKeys.headD "") = some g' := by
    rw [lookupA_filter_notmem hm2]
    exact lookupA_of_mem hndCr hg'mem
  rw [hdl, hcl]
  simp only [Option.getD_some]
  refine ⟨del_cr_path_ne hinvP hinvC hf'mem hcmem, ?_, ?_,
    fun hpath => del_cr_path_ne hinvP hinvC hdmem hg'mem hpath.symm⟩
  · intro hpath
    have hk : q.2.headD "" = dk := del_del_key hinvP hf'mem hdmem hpath
    apply hqs
    rw [← hf's]
    have : f' = delF := by
      have h1 := lookupA_of_mem hndDel hf'mem
      rw [hk] at h1
      rw [h1] at hdf
      exact Option.some.inj hdf
    rw [this, hds]
  · intro hpath
    have hk : crKeys.headD "" = ck := cr_cr_key hinvC hg'mem hcmem hpath
    apply hqs
    rw [← hg's]
    have : g' = crF := by
      have h1 := lookupA_of_mem hndCr hg'mem
      rw [hk] at h1
      rw [h1] at hcf
      exact Option.some.inj hcf
    rw [this, hcs]

/-- C4 (amended): Pass 2 of move reconciliation. The size groups are built
from all move-eligible deleted/created entries before Pass 1 consumption;
when both groups at a size are singletons and neither key was consumed by
Pass 1, the pair is rewritten into a single `moved` record if and only if
`|created.mtime - deleted.mtime| < 1 minute`; outside the window the raw
`created`/`deleted` records are kept. -/
theorem move_pass2_unique_size
    (directory : String) (s : Int) (dk ck : String) (delF crF : FileState)
    (prevFiles curFiles : List (String × FileState))
    (hndp : (keysA prevFiles).Nodup) (hndc : (keysA curFiles).Nodup)
    (hip : ∀ q ∈ prevFiles, goStartsWith q.1 (directory ++ ":") = true →
      q.1 = (directory ++ ":") ++ q.2.path)
    (hic : ∀ q ∈ curFiles, goStartsWith q.1 (directory ++ ":") = true →
      q.1 = (directory ++ ":") ++ q.2.path)
    (hdS : lookupZ (buildSizeIdx (delView directory prevFiles curFiles)) s = some [dk])
    (hcS : lookupZ (buildSizeIdx (crView directory prevFiles curFiles)) s = some [ck])
    (hdm : dk ∉ (pass1Of directory prevFiles curFiles).2)
    (hcm : ck ∉ (pass1Of directory prevFiles curFiles).2)
    (hdf : lookupA (delView directory prevFiles curFiles) dk = some delF)
    (hcf : lookupA (crView directory prevFiles curFiles) ck = some crF) :
    (crF.mtime - delF.mtime < oneMinute ∧ -oneMinute < crF.mtime - delF.mtime →
       recordsFor (compareStates directory prevFiles curFiles) crF.path
         = [movedOf delF crF] ∧
       recordsFor (compareStates directory prevFiles curFiles) delF.path = []) ∧
    (¬(crF.mtime - delF.mtime < oneMinute ∧ -oneMinute < crF.mtime - delF.mtime) →
       recordsFor (compareStates directory prevFiles curFiles) crF.path
         = [mkChange "created" crF] ∧
       recordsFor (compareStates directory prevFiles curFiles) delF.path
         = [mkChange "deleted" delF]) := by
  have hinvP := keyInv_filesForDir hip
  have hinvC := keyInv_filesForDir hic
  have hndDel : (keysA (delView directory prevFiles curFiles)).Nodup :=
    keysA_deletedOf_nodup (keysA_filter_nodup hndp)
  have hndCr : (keysA (crView directory prevFiles curFiles)).Nodup :=
    keysA_createdOf_nodup (keysA_filter_nodup hndc)
  have hdmem := lookupA_mem hdf
  have hcmem := lookupA_mem hcf
  have hpathne : delF.path ≠ crF.path := del_cr_path_ne hinvP hinvC hdmem hcmem
  have hpathne' : crF.path ≠ delF.path := fun h => hpathne h.symm
  -- the unique keys of the size-`s` groups carry files of size `s`
  obtain ⟨f0, hf0mem, hf0s, _⟩ := buildSizeIdx_lookup hdS dk (by simp)
  have hds : delF.size = s := by
    have h1 := lookupA_of_mem hndDel hf0mem
    rw [hdf] at h1
    rw [Option.some.inj h1]
    exact hf0s
  obtain ⟨g0, hg0mem, hg0s, _⟩ := buildSizeIdx_lookup hcS ck (by simp)
  have hcs : crF.size = s := by
    have h1 := lookupA_of_mem hndCr hg0mem
    rw [hcf] at h1
    rw [Option.some.inj h1]
    exact hg0s
  -- Pass 1 leaves the two raw records untouched (neither key was consumed)
  have hLC : ∀ r ∈ buildETagIdx (delView directory prevFiles curFiles), ∀ ck',
      lookupA (buildETagIdx (crView directory prevFiles curFiles)) r.1 = some ck' →
      ((lookupA (delView directory prevFiles curFiles) r.2).getD default).path ≠ crF.path ∧
      ((lookupA (crView directory prevFiles curFiles) ck').getD default).path ≠ crF.path := by
    intro r hr ck' hck'
    have h2 := pass1_fold_fired_matched (delView directory prevFiles curFiles)
      (crView directory prevFiles curFiles)
      (buildETagIdx (crView directory prevFiles curFiles))
      (buildETagIdx (delView directory prevFiles curFiles))
      (compareStatesRaw directory prevFiles curFiles, []) hr hck'
    have hrd : r.2 ≠ dk := fun h => hdm (h ▸ h2.1)
    have hrc : ck' ≠ ck := fun h => hcm (h ▸ h2.2)
    have E := pass1_entry_paths_ne2 directory prevFiles curFiles hndp hndc hip hic
      hdf hcf r hr ck' hck' hrd hrc
    exact ⟨E.1, E.2.2.1⟩
  have hLD : ∀ r ∈ buildETagIdx (delView directory prevFiles curFiles), ∀ ck',
      lookupA (buildETagIdx (crView directory prevFiles curFiles)) r.1 = some ck' →
      ((lookupA (delView directory prevFiles curFiles) r.2).getD default).path ≠ delF.path ∧
      ((lookupA (crView directory prevFiles curFiles) ck').getD default).path ≠ delF.path := by
    intro r hr ck' hck'
    have h2 := pass1_fold_fired_matched (delView directory prevFiles curFiles)
      (crView directory prevFiles curFiles)
      (buildETagIdx (crView directory prevFiles curFiles))
      (buildETagIdx (delView directory prevFiles curFiles))
      (compareStatesRaw directory prevFiles curFiles, []) hr hck'
    have hrd : r.2 ≠ dk := fun h => hdm (h ▸ h2.1)
    have hrc : ck' ≠ ck := fun h => hcm (h ▸ h2.2)
    have E := pass1_entry_paths_ne2 directory prevFiles curFiles hndp hndc hip hic
      hdf hcf r hr ck' hck' hrd hrc
    exact ⟨E.2.1, E.2.2.2⟩
  have hp1C : recordsFor (pass1Of directory prevFiles curFiles).1 crF.path
      = [mkChange "created" crF] := by
    simp only [pass1Of, pass1]
    rw [pass1_fold_frame _ _ _ _ _ _ hLC]
    exact recordsFor_raw_created directory prevFiles curFiles hndp hndc hip hic hcf
  have hp1D : recordsFor (pass1Of directory prevFiles curFiles).1 delF.path
      = [mkChange "deleted" delF] := by
    simp only [pass1Of, pass1]
    rw [pass1_fold_frame _ _ _ _ _ _ hLD]
    exact recordsFor_raw_deleted directory prevFiles curFiles hndp hndc hip hic hdf
  -- split the size index at the entry (s, [dk])
  obtain ⟨Z1, Z2, hzsplit⟩ := List.append_of_mem (lookupZ_mem hdS)
  have hznd := buildSizeIdx_nodup (delView directory prevFiles curFiles)
  rw [hzsplit] at hznd
  have hzmapnd : (Z1.map Prod.fst ++ s :: Z2.map Prod.fst).Nodup := by
    simpa [keysZ] using hznd
  have hs1 : ∀ r ∈ Z1, r.1 ≠ s := by
    intro r hr hre
    rcases List.nodup_append.mp hzmapnd with ⟨_, _, hdisj⟩
    exact hdisj (hre ▸ List.mem_map.mpr ⟨r, hr, rfl⟩) (List.mem_cons_self _ _)
  have hs2 : ∀ r ∈ Z2, r.1 ≠ s := by
    intro r hr hre
    rcases List.nodup_append.mp hzmapnd with ⟨_, hnd2, _⟩
    rcases List.nodup_cons.mp hnd2 with ⟨hne, _⟩
    exact hne (hre ▸ List.mem_map.mpr ⟨r, hr, rfl⟩)
  have hzmem1 : ∀ r ∈ Z1, r ∈ buildSizeIdx (delView directory prevFiles curFiles) := by
    intro r hr
    rw [hzsplit]
    exact List.mem_append.mpr (Or.inl hr)
  have hzmem2 : ∀ r ∈ Z2, r ∈ buildSizeIdx (delView directory prevFiles curFiles) := by
    intro r hr
    rw [hzsplit]
    exact List.mem_append.mpr (Or.inr (List.mem_cons_of_mem _ hr))
  have hZ := fun (M : List (Int × List String))
      (hmem : ∀ r ∈ M, r ∈ buildSizeIdx (delView directory prevFiles curFiles))
      (hne : ∀ r ∈ M, r.1 ≠ s) =>
    fun (r : Int × List String) hr crKeys hck hl1 hl2 hm1 hm2 =>
      pass2_entry_paths_ne3 directory prevFiles curFiles hndp hndc hip hic
        (pass1Of directory prevFiles curFiles).2 hdf hcf hds hcs
        r (hmem r hr) (hne r hr) crKeys hck hl1 hl2 hm1 hm2
  -- the two frame hypotheses for each of Z1, Z2
  have hZ1C := fun r hr crKeys hck hl1 hl2 hm1 hm2 =>
    And.intro (hZ Z1 hzmem1 hs1 r hr crKeys hck hl1 hl2 hm1 hm2).1
      (hZ Z1 hzmem1 hs1 r hr crKeys hck hl1 hl2 hm1 hm2).2.2.1
  have hZ1D := fun r hr crKeys hck hl1 hl2 hm1 hm2 =>
    And.intro (hZ Z1 hzmem1 hs1 r hr crKeys hck hl1 hl2 hm1 hm2).2.1
      (hZ Z1 hzmem1 hs1 r hr crKeys hck hl1 hl2 hm1 hm2).2.2.2
  have hZ2C := fun r hr crKeys hck hl1 hl2 hm1 hm2 =>
    And.intro (hZ Z2 hzmem2 hs2 r hr crKeys hck hl1 hl2 hm1 hm2).1
      (hZ Z2 hzmem2 hs2 r hr crKeys hck hl1 hl2 hm1 hm2).2.2.1
  have hZ2D := fun r hr crKeys hck hl1 hl2 hm1 hm2 =>
    And.intro (hZ Z2 hzmem2 hs2 r hr crKeys hck hl1 hl2 hm1 hm2).2.1
      (hZ Z2 hzmem2 hs2 r hr crKeys hck hl1 hl2 hm1 hm2).2.2.2
  have hdl2 : lookupA ((delView directory prevFiles curFiles).filter
      (fun q => q.1 ∉ (pass1Of directory prevFiles curFiles).2)) dk = some delF := by
    rw [lookupA_filter_notmem hdm]
    exact hdf
  have hcl2 : lookupA ((crView directory prevFiles curFiles).filter
      (fun q => q.1 ∉ (pass1Of directory prevFiles curFiles).2)) ck = some crF := by
    rw [lookupA_filter_notmem hcm]
    exact hcf
  simp only [decide_not] at hdl2 hcl2
  have hstepIf : ∀ cs, pass2Step (pass1Of directory prevFiles curFiles).2
      ((delView directory prevFiles curFiles).filter
        (fun q => q.1 ∉ (pass1Of directory prevFiles curFiles).2))
      ((crView directory prevFiles curFiles).filter
        (fun q => q.1 ∉ (pass1Of directory prevFiles curFiles).2))
      (buildSizeIdx (crView directory prevFiles curFiles)) cs (s, [dk])
      = if crF.mtime - delF.mtime < oneMinute ∧ -oneMinute < crF.mtime - delF.mtime
        then removeChange (removeChange cs "created" crF.path) "deleted" delF.path
          ++ [movedOf delF crF]
        else cs := by
    intro cs
    simp [pass2Step, hcS, hdm, hcm, hdl2, hcl2]
  constructor
  · intro ht
    constructor
    · rw [compareStates_eq_pass2, hzsplit, List.foldl_append, List.foldl_cons,
        pass2_fold_frame _ _ _ _ Z2 _ _ hZ2C, hstepIf _, if_pos ht, recordsFor_snoc,
        recordsFor_removeChange_ne _ _ _ _ hpathne, recordsFor_removeChange_comm,
        pass2_fold_frame _ _ _ _ Z1 _ _ hZ1C, hp1C]
      simp [removeChange, mkChange, movedOf]
    · rw [compareStates_eq_pass2, hzsplit, List.foldl_append, List.foldl_cons,
        pass2_fold_frame _ _ _ _ Z2 _ _ hZ2D, hstepIf _, if_pos ht, recordsFor_snoc,
        if_neg (by simpa [movedOf] using hpathne'), List.append_nil,
        recordsFor_removeChange_comm, recordsFor_removeChange_ne _ _ _ _ hpathne',
        pass2_fold_frame _ _ _ _ Z1 _ _ hZ1D, hp1D]
      simp [removeChange, mkChange]
  · intro ht
    constructor
    · rw [compareStates_eq_pass2, hzsplit, List.foldl_append, List.foldl_cons,
        pass2_fold_frame _ _ _ _ Z2 _ _ hZ2C, hstepIf _, if_neg ht,
        pass2_fold_frame _ _ _ _ Z1 _ _ hZ1C, hp1C]
    · rw [compareStates_eq_pass2, hzsplit, List.foldl_append, List.foldl_cons,
        pass2_fold_frame _ _ _ _ Z2 _ _ hZ2D, hstepIf _, if_neg ht,
        pass2_fold_frame _ _ _ _ Z1 _ _ hZ1D, hp1D]

/-- Counterexample to C4 as stated: after Pass 1 consumes the ETag pair
(`/a` → `/x`), exactly one deleted (`/b`) and one created (`/y`)
move-eligible entry of size 5 remain, with mtimes 10 ns apart — well
within one minute — yet no `moved` record is produced and the raw
`created`/`deleted` records are kept, because the code sizes its groups
before consumption (`/a` still counts in the size-5 deleted group). -/
theorem move_pass2_size_counterexample :
    ((delView "/W" [("/W:/a", (⟨"/a", false, 5, 0, "e"⟩ : FileState)),
          ("/W:/b", (⟨"/b", false, 5, 10, "f"⟩ : FileState))]
        [("/W:/x", (⟨"/x", false, 5, 0, "e"⟩ : FileState)),
          ("/W:/y", (⟨"/y", false, 5, 20, "g"⟩ : FileState))]).filter
        (fun q => decide (q.1 ∉ (pass1Of "/W"
            [("/W:/a", (⟨"/a", false, 5, 0, "e"⟩ : FileState)),
              ("/W:/b", (⟨"/b", false, 5, 10, "f"⟩ : FileState))]
            [("/W:/x", (⟨"/x", false, 5, 0, "e"⟩ : FileState)),
              ("/W:/y", (⟨"/y", false, 5, 20, "g"⟩ : FileState))]).2)
          && moveElig q.2 && decide (q.2.size = 5)))
      = [("/W:/b", (⟨"/b", false, 5, 10, "f"⟩ : FileState))] ∧
    ((crView "/W" [("/W:/a", (⟨"/a", false, 5, 0, "e"⟩ : FileState)),
          ("/W:/b", (⟨"/b", false, 5, 10, "f"⟩ : FileState))]
        [("/W:/x", (⟨"/x", false, 5, 0, "e"⟩ : FileState)),
          ("/W:/y", (⟨"/y", false, 5, 20, "g"⟩ : FileState))]).filter
        (fun q => decide (q.1 ∉ (pass1Of "/W"
            [("/W:/a", (⟨"/a", false, 5, 0, "e"⟩ : FileState)),
              ("/W:/b", (⟨"/b", false, 5, 10, "f"⟩ : FileState))]
            [("/W:/x", (⟨"/x", false, 5, 0, "e"⟩ : FileState)),
              ("/W:/y", (⟨"/y", false, 5, 20, "g"⟩ : FileState))]).2)
          && moveElig q.2 && decide (q.2.size = 5)))
      = [("/W:/y", (⟨"/y", false, 5, 20, "g"⟩ : FileState))] ∧
    ((20 : Int) - 10 < oneMinute ∧ -oneMinute < (20 : Int) - 10) ∧
    recordsFor (compareStates "/W"
        [("/W:/a", (⟨"/a", false, 5, 0, "e"⟩ : FileState)),
          ("/W:/b", (⟨"/b", false, 5, 10, "f"⟩ : FileState))]
        [("/W:/x", (⟨"/x", false, 5, 0, "e"⟩ : FileState)),
          ("/W:/y", (⟨"/y", false, 5, 20, "g"⟩ : FileState))]) "/y"
      = [mkChange "created" ⟨"/y", false, 5, 20, "g"⟩] ∧
    recordsFor (compareStates "/W"
        [("/W:/a", (⟨"/a", false, 5, 0, "e"⟩ : FileState)),
          ("/W:/b", (⟨"/b", false, 5, 10, "f"⟩ : FileState))]
        [("/W:/x", (⟨"/x", false, 5, 0, "e"⟩ : FileState)),
          ("/W:/y", (⟨"/y", false, 5, 20, "g"⟩ : FileState))]) "/b"
      = [mkChange "deleted" ⟨"/b", false, 5, 10, "f"⟩] := by
  decide

/-- Witness for the amended C4 on the spec's S5 scenario
(size-10 pair 30 s apart → rewritten as `moved`). -/
theorem move_pass2_unique_size_witness :
    ((30000000000 : Int) - 0 < oneMinute ∧ -oneMinute < (30000000000 : Int) - 0 →
      recordsFor (compareStates "/W" [("/W:/a", (⟨"/a", false, 10, 0, "E1"⟩ : FileState))]
          [("/W:/d", (⟨"/d", false, 10, 30000000000, "E3"⟩ : FileState))]) "/d"
        = [movedOf ⟨"/a", false, 10, 0, "E1"⟩ ⟨"/d", false, 10, 30000000000, "E3"⟩] ∧
      recordsFor (compareStates "/W" [("/W:/a", (⟨"/a", false, 10, 0, "E1"⟩ : FileState))]
          [("/W:/d", (⟨"/d", false, 10, 30000000000, "E3"⟩ : FileState))]) "/a" = []) ∧
    (¬((30000000000 : Int) - 0 < oneMinute ∧ -oneMinute < (30000000000 : Int) - 0) →
      recordsFor (compareStates "/W" [("/W:/a", (⟨"/a", false, 10, 0, "E1"⟩ : FileState))]
          [("/W:/d", (⟨"/d", false, 10, 30000000000, "E3"⟩ : FileState))]) "/d"
        = [mkChange "created" ⟨"/d", false, 10, 30000000000, "E3"⟩] ∧
      recordsFor (compareStates "/W" [("/W:/a", (⟨"/a", false, 10, 0, "E1"⟩ : FileState))]
          [("/W:/d", (⟨"/d", false, 10, 30000000000, "E3"⟩ : FileState))]) "/a"
        = [mkChange "deleted" ⟨"/a", false, 10, 0, "E1"⟩]) :=
  move_pass2_unique_size "/W" 10 "/W:/a" "/W:/d"
    ⟨"/a", false, 10, 0, "E1"⟩ ⟨"/d", false, 10, 30000000000, "E3"⟩
    [("/W:/a", ⟨"/a", false, 10, 0, "E1"⟩)]
    [("/W:/d", ⟨"/d", false, 10, 30000000000, "E3"⟩)]
    (by decide) (by decide) (by decide) (by decide) (by decide) (by decide)
    (by decide) (by decide) (by decide) (by decide)

theorem goStartsWith_slash_append (t : String) : goStartsWith ("/" ++ t) "/" = true := by
  rw [goStartsWith, String.data_append]
  have h : ("/" : String).data = ['/'] := rfl
  rw [h]
  simp [List.isPrefixOf]

/-- Counterexample to C7 as stated: a trailing slash survives
normalization — `"/a/"` is used as-is for stat, composite keys and
dir_etags. -/
theorem normalizeDir_trailing_slash_counterexample :
    normalizeDir "/a/" = "/a/" ∧
    goHasSuffix (normalizeDir "/a/") "/" = true ∧
    normalizeDir "/a/" ≠ "/" := by
  refine ⟨?_, by decide, by decide⟩
  decide

/-- C7 (amended): the orchestrator's normalization only guarantees a
leading slash (the empty root becomes `/`); trailing slashes are
preserved. -/
theorem normalizeDir_leading_slash (d : String) :
    goStartsWith (normalizeDir d) "/" = true := by
  rw [normalizeDir]
  split_ifs with h1 h2
  · decide
  · exact h2
  · exact goStartsWith_slash_append _

/-- C5: fast path. When the stored prior directory ETag is non-empty and
equals the stat ETag, the detection step does not consult the recursive
walker (its result is the same for any two walkers) and the current state
receives exactly the prior `files` entries whose composite key starts
with `"<watch_root>:"`, hidden-filtered when `include_hidden` is false;
otherwise the walker's returned entries are installed into the current
files under composite keys. -/
theorem fast_path_reuse
    (stat : String → Option FileInfo)
    (w w1 w2 : String → Bool → Option (List FileInfo × List (String × String)))
    (now : Int) (prevState cur : State) (includeHidden : Bool) (dir0 : String)
    (dirInfo : FileInfo)
    (hstat : stat (normalizeDir dir0) = some dirInfo) :
    (((lookupA prevState.dirETags (normalizeDir dir0)).getD "" ≠ "" ∧
      (lookupA prevState.dirETags (normalizeDir dir0)).getD "" = dirInfo.etag) →
      (processDir ⟨stat, w1⟩ now prevState includeHidden cur dir0
        = processDir ⟨stat, w2⟩ now prevState includeHidden cur dir0) ∧
      processDir ⟨stat, w⟩ now prevState includeHidden cur dir0
        = some
          ({ cur with
             files := ((prevState.files.filter (fun q =>
               goStartsWith q.1 (normalizeDir dir0 ++ ":") &&
                 (includeHidden || !isHidden q.2.path)))).foldl
               (fun m q => insertA m q.1 q.2) cur.files,
             dirETags := insertA cur.dirETags (normalizeDir dir0) dirInfo.etag },
           { directory := normalizeDir dir0,
             changes := compareStates (normalizeDir dir0) prevState.files
               (((prevState.files.filter (fun q =>
                 goStartsWith q.1 (normalizeDir dir0 ++ ":") &&
                   (includeHidden || !isHidden q.2.path)))).foldl
                 (fun m q => insertA m q.1 q.2) cur.files),
             timestamp := now })) ∧
    (¬((lookupA prevState.dirETags (normalizeDir dir0)).getD "" ≠ "" ∧
      (lookupA prevState.dirETags (normalizeDir dir0)).getD "" = dirInfo.etag) →
      ∀ files sunk, w (normalizeDir dir0) includeHidden = some (files, sunk) →
      processDir ⟨stat, w⟩ now prevState includeHidden cur dir0
        = some
          ({ cur with
             files := files.foldl (fun m f =>
               insertA m (normalizeDir dir0 ++ ":" ++ f.path) (toFileState f)) cur.files,
             dirETags := insertA
               (sunk.foldl (fun m p => insertA m (normSlash p.1) p.2) cur.dirETags)
               (normalizeDir dir0) dirInfo.etag },
           { directory := normalizeDir dir0,
             changes := compareStates (normalizeDir dir0) prevState.files
               (files.foldl (fun m f =>
                 insertA m (normalizeDir dir0 ++ ":" ++ f.path) (toFileState f)) cur.files),
             timestamp := now })) := by
  constructor
  · intro hcond
    constructor
    · simp only [processDir, hstat]
      rw [if_pos hcond, if_pos hcond]
    · simp only [processDir, hstat]
      rw [if_pos hcond]
  · intro hcond files sunk hw
    simp only [processDir, hstat]
    rw [if_neg hcond]
    simp only [hw]

/-- Witness for C5: with the stored ETag matching the stat ETag, two
detections backed by different walkers produce identical results. -/
theorem fast_path_reuse_witness :
    processDir ⟨fun _ => some ⟨"/W", true, 0, 0, "E"⟩,
        fun _ _ => some ([(⟨"/z", false, 1, 0, "Z"⟩ : FileInfo)], [])⟩ 7
      ⟨[("/W:/a", ⟨"/a", false, 3, 5, "A"⟩)], [("/W", "E")], 0⟩ false ⟨[], [], 7⟩ "/W"
      = processDir ⟨fun _ => some ⟨"/W", true, 0, 0, "E"⟩, fun _ _ => none⟩ 7
      ⟨[("/W:/a", ⟨"/a", false, 3, 5, "A"⟩)], [("/W", "E")], 0⟩ false ⟨[], [], 7⟩ "/W" :=
  ((fast_path_reuse (fun _ => some ⟨"/W", true, 0, 0, "E"⟩)
    (fun _ _ => some ([], []))
    (fun _ _ => some ([(⟨"/z", false, 1, 0, "Z"⟩ : FileInfo)], []))
    (fun _ _ => none) 7
    ⟨[("/W:/a", ⟨"/a", false, 3, 5, "A"⟩)], [("/W", "E")], 0⟩ ⟨[], [], 7⟩ false "/W"
    ⟨"/W", true, 0, 0, "E"⟩ rfl).1 (by decide)).1

/-- Counterexample to C6 as stated: with a corrupt state file, `loadState`
does fail with `Corrupt`, but `DetectChanges` swallows the error and the
detection succeeds (proceeding with an empty prior snapshot) instead of
failing. -/
theorem load_corrupt_counterexample :
    loadState (some (Jx.str "garbage")) = Except.error () ∧
    (detectTop ⟨fun _ => some ⟨"/W", true, 0, 0, "E"⟩, fun _ _ => some ([], [])⟩ 0
      (some (Jx.str "garbage")) ["/W"] false).isSome = true := by
  constructor
  · rfl
  · rfl

/-- C6 (amended): `loadState` is total over missing files (empty snapshot,
both maps empty, zero last_update) and strict over corrupt ones
(`Corrupt` error) — but `DetectChanges` treats every load failure as an
absent prior snapshot: on a corrupt state file it silently proceeds with
an empty prior state, behaving exactly as if the file were missing; the
detection does not fail. -/
theorem load_error_fallback
    (content : Option Jx) (o : ClientOracle) (now : Int)
    (dirs : List String) (ih : Bool) :
    (content = none → loadState content = Except.ok ⟨[], [], 0⟩) ∧
    (∀ j, content = some j → decodeState j = none →
      loadState content = Except.error () ∧
      detectTop o now content dirs ih = detectTop o now none dirs ih) := by
  constructor
  · intro h
    subst h
    rfl
  · intro j hj hd
    subst hj
    constructor
    · simp [loadState, hd]
    · simp [detectTop, loadState, hd]

/-- Witness for the amended C6: a corrupt file makes the detection behave
exactly like a missing file. -/
theorem load_error_fallback_witness :
    loadState (some (Jx.str "zzz")) = Except.error () ∧
    detectTop ⟨fun _ => some ⟨"/W", true, 0, 0, "E"⟩, fun _ _ => some ([], [])⟩ 0
        (some (Jx.str "zzz")) ["/W"] false
      = detectTop ⟨fun _ => some ⟨"/W", true, 0, 0, "E"⟩, fun _ _ => some ([], [])⟩ 0
        none ["/W"] false :=
  (load_error_fallback (some (Jx.str "zzz"))
    ⟨fun _ => some ⟨"/W", true, 0, 0, "E"⟩, fun _ _ => some ([], [])⟩ 0
    ["/W"] false).2 (Jx.str "zzz") rfl rfl

theorem strictSorted_tail {a : String} {l : List String}
    (h : strictSorted (a :: l) = true) : strictSorted l = true := by
  cases l with
  | nil => rfl
  | cons b rest =>
    rw [strictSorted, Bool.and_eq_true] at h
    exact h.2

/-- A key-sorted association list is left unchanged by the marshal-time
sort. -/
theorem sortByKey_sorted_id {α : Type} {l : List (String × α)}
    (h : strictSorted (keysA l) = true) : sortByKey l = l := by
  induction l with
  | nil => rfl
  | cons p rest ih =>
    have htl : strictSorted (keysA rest) = true := strictSorted_tail h
    rw [sortByKey, List.foldr_cons]
    have : List.foldr insSorted [] rest = rest := by
      rw [← sortByKey]
      exact ih htl
    rw [this]
    cases rest with
    | nil => rfl
    | cons q rest' =>
      rw [insSorted]
      have hlt : p.1 < q.1 := by
        have := h
        rw [keysA, List.map_cons, List.map_cons, strictSorted, Bool.and_eq_true] at this
        exact of_decide_eq_true this.1
      rw [if_pos (le_of_lt hlt)]

theorem decodeFileState_encode (f : FileState) :
    decodeFileState (encodeFileState f) = some f := by
  simp [decodeFileState, encodeFileState, getStrField, getBoolField, getNumField, lookupA]

theorem decodeFileEntries_map (l : List (String × FileState)) :
    decodeFileEntries (l.map (fun q => (q.1, encodeFileState q.2))) = some l := by
  induction l with
  | nil => rfl
  | cons p rest ih =>
    rw [List.map_cons, decodeFileEntries, decodeFileState_encode, ih]

theorem decodeETagEntries_map (l : List (String × String)) :
    decodeETagEntries (l.map (fun q => (q.1, Jx.str q.2))) = some l := by
  induction l with
  | nil => rfl
  | cons p rest ih =>
    simp [decodeETagEntries, ih]

/-- C9: snapshot round-trip.  A well-formed persisted snapshot — one in
the canonical form `save` emits, with sorted map keys — decodes to a
state whose re-serialization is byte-for-byte (value-for-value) the same
document: `save(load(X)) == X`. -/
theorem snapshot_roundtrip (s : State)
    (h1 : strictSorted (keysA s.files) = true)
    (h2 : strictSorted (keysA s.dirETags) = true) :
    (decodeState (encodeState s)).map encodeState = some (encodeState s) := by
  have hs1 : sortByKey s.files = s.files := sortByKey_sorted_id h1
  have hs2 : sortByKey s.dirETags = s.dirETags := sortByKey_sorted_id h2
  have hd : decodeState (encodeState s) = some ⟨s.files, s.dirETags, s.lastUpdate⟩ := by
    rw [encodeState, hs1, hs2, decodeState]
    simp only [lookupA]
    simp [decodeFilesMap, decodeETagsMap, decodeFileEntries_map, decodeETagEntries_map]
  rw [hd, Option.map_some']

/-- Witness for C9 at a one-entry snapshot. -/
theorem snapshot_roundtrip_witness :
    (decodeState (encodeState ⟨[("/W:/a", ⟨"/a", false, 3, 5, "E"⟩)], [("/W", "E")], 9⟩)).map
        encodeState
      = some (encodeState ⟨[("/W:/a", ⟨"/a", false, 3, 5, "E"⟩)], [("/W", "E")], 9⟩) :=
  snapshot_roundtrip ⟨[("/W:/a", ⟨"/a", false, 3, 5, "E"⟩)], [("/W", "E")], 9⟩
    (by decide) (by decide)

/-- Counterexample to C1 as stated: `saveState` writes the target file
directly (no temp-file + rename).  On a run where the write fails after
3 bytes, the save fails, yet the previously persisted snapshot is gone
and a torn snapshot (`"NEW"`), neither the old nor the new contents, is
observable. -/
theorem saveState_not_atomic_counterexample :
    (saveStateFS ⟨[("data/state.json", ("OLDSNAPSHOT", 0o644))], [("data", 0o755)]⟩
      "data/state.json" "NEWDATA" ⟨true, some 3⟩).2 = false ∧
    lookupA (saveStateFS ⟨[("data/state.json", ("OLDSNAPSHOT", 0o644))], [("data", 0o755)]⟩
      "data/state.json" "NEWDATA" ⟨true, some 3⟩).1.files "data/state.json"
      = some ("NEW", 0o644) ∧
    ("NEW" : String) ≠ "OLDSNAPSHOT" ∧ ("NEW" : String) ≠ "NEWDATA" := by
  refine ⟨?_, ?_, by decide, by decide⟩
  · decide
  · decide

/-- C1 (amended): `saveState` ensures the parent directory exists
(`MkdirAll` mode 0755, skipped for `"."`/`""`), serializes the snapshot,
and writes it directly to the target with `os.WriteFile` mode 0644 — not
atomically.  A failed `MkdirAll` leaves the file system intact; a
successful run replaces the target with the new data; but a write that
fails mid-way leaves a partial (torn) snapshot in place of the previous
one. -/
theorem saveState_write_characterization (fs : FS) (stateFile data : String) (r : SaveRun) :
    (goDir stateFile ≠ "." ∧ goDir stateFile ≠ "" ∧ r.mkdirOK = false →
      saveStateFS fs stateFile data r = (fs, false)) ∧
    (r.mkdirOK = true → r.writeFailAt = none →
      (saveStateFS fs stateFile data r).2 = true ∧
      lookupA (saveStateFS fs stateFile data r).1.files stateFile = some (data, 0o644) ∧
      (goDir stateFile ≠ "." ∧ goDir stateFile ≠ "" →
        lookupA (saveStateFS fs stateFile data r).1.dirs (goDir stateFile) = some 0o755)) ∧
    (r.mkdirOK = true → ∀ k, r.writeFailAt = some k →
      (saveStateFS fs stateFile data r).2 = false ∧
      lookupA (saveStateFS fs stateFile data r).1.files stateFile
        = some (⟨data.data.take k⟩, 0o644)) := by
  refine ⟨?_, ?_, ?_⟩
  · intro h
    rw [saveStateFS]
    simp only [if_pos h]
  · intro hmk hw
    have hno : ¬(goDir stateFile ≠ "." ∧ goDir stateFile ≠ "" ∧ r.mkdirOK = false) := by
      intro h
      rw [hmk] at h
      simp at h
    rw [saveStateFS]
    simp only [if_neg hno, hw]
    by_cases hdir : goDir stateFile ≠ "." ∧ goDir stateFile ≠ ""
    · simp only [if_pos hdir]
      refine ⟨trivial, ?_, ?_⟩
      · simp [lookupA_insertA]
      · intro h
        simp [lookupA_insertA]
    · simp only [if_neg hdir]
      refine ⟨trivial, ?_, ?_⟩
      · simp [lookupA_insertA]
      · intro h
        exact absurd h hdir
  · intro hmk k hw
    have hno : ¬(goDir stateFile ≠ "." ∧ goDir stateFile ≠ "" ∧ r.mkdirOK = false) := by
      intro h
      rw [hmk] at h
      simp at h
    rw [saveStateFS]
    simp only [if_neg hno, hw]
    by_cases hdir : goDir stateFile ≠ "." ∧ goDir stateFile ≠ ""
    · simp only [if_pos hdir]
      exact ⟨trivial, by simp [lookupA_insertA]⟩
    · simp only [if_neg hdir]
      exact ⟨trivial, by simp [lookupA_insertA]⟩

/-- Witness for the amended C1: a successful run installs the new data,
and a run failing after 3 bytes leaves the torn prefix `"NEW"`. -/
theorem saveState_write_characterization_witness :
    ((saveStateFS ⟨[("data/state.json", ("OLDSNAPSHOT", 0o644))], [("data", 0o755)]⟩
        "data/state.json" "NEWDATA" ⟨true, some 3⟩).2 = false ∧
      lookupA (saveStateFS ⟨[("data/state.json", ("OLDSNAPSHOT", 0o644))], [("data", 0o755)]⟩
        "data/state.json" "NEWDATA" ⟨true, some 3⟩).1.files "data/state.json"
        = some (⟨("NEWDATA" : String).data.take 3⟩, 0o644)) :=
  (saveState_write_characterization
    ⟨[("data/state.json", ("OLDSNAPSHOT", 0o644))], [("data", 0o755)]⟩
    "data/state.json" "NEWDATA" ⟨true, some 3⟩).2.2 rfl 3 rfl

/-- The hidden-filtered walk equals the unfiltered walk with hidden
entries dropped pointwise: descent is never pruned. -/
theorem walkList_false_filter :
    ∀ cs : List (FileInfo × RTree),
      walkList false cs = (walkList true cs).filter (fun f => !isHidden f.path)
  | [] => by simp [walkList]
  | (item, RTree.node cs') :: rest => by
    have h1 := walkList_false_filter cs'
    have h2 := walkList_false_filter rest
    by_cases hh : isHidden item.path
    · by_cases hd : item.isDir
      · simp [walkList, hh, hd, h1, h2, List.filter_append]
      · simp [walkList, hh, hd, h1, h2, List.filter_append]
    · by_cases hd : item.isDir
      · simp [walkList, hh, hd, h1, h2, List.filter_append]
      · simp [walkList, hh, hd, h1, h2, List.filter_append]

/-- Every immediate child appears in the unfiltered walk. -/
theorem walkList_true_mem :
    ∀ cs : List (FileInfo × RTree), ∀ q ∈ cs, q.1 ∈ walkList true cs
  | [], q, hq => by simp at hq
  | (item, RTree.node cs') :: rest, q, hq => by
    rcases List.mem_cons.mp hq with h | h
    · subst h
      simp [walkList]
    · have := walkList_true_mem rest q h
      by_cases hd : item.isDir <;> simp [walkList, hd, this]

/-- C8: hidden-entry policy of the recursive walk.  A path is hidden iff
some `/`-separated segment of it begins with `.`; with
`include_hidden = false` every hidden entry (file or directory) is
omitted from the listing but hidden directories are still descended into
(the filtered walk is the pointwise hidden-filter of the unfiltered
walk, with identical descent); with `include_hidden = true` hidden
entries appear. -/
theorem hidden_policy :
    (∀ p, isHidden p = true ↔
      ∃ part ∈ goSplitChar (goTrimChar p '/') '/', goStartsWith part "." = true) ∧
    (∀ cs : List (FileInfo × RTree),
      walkList false cs = (walkList true cs).filter (fun f => !isHidden f.path)) ∧
    (∀ cs : List (FileInfo × RTree), ∀ q ∈ cs, q.1 ∈ walkList true cs) := by
  refine ⟨?_, walkList_false_filter, walkList_true_mem⟩
  intro p
  rw [isHidden, List.any_eq_true]
  constructor
  · rintro ⟨part, hmem, hcond⟩
    rw [Bool.and_eq_true] at hcond
    exact ⟨part, hmem, hcond.2⟩
  · rintro ⟨part, hmem, hpre⟩
    refine ⟨part, hmem, ?_⟩
    rw [Bool.and_eq_true]
    refine ⟨?_, hpre⟩
    have hne : part ≠ "" := by
      intro h
      subst h
      exact absurd hpre (by decide)
    simp [hne]

/-- Witness for C8 on the spec's S6 path. -/
theorem hidden_policy_witness : isHidden "/W/.hidden/x.txt" = true :=
  (hidden_policy.1 "/W/.hidden/x.txt").mpr ⟨".hidden", by decide, by decide⟩

/-! ## Frame property of the orchestrator (claim C10) -/

theorem goStartsWith_refl (s : String) : goStartsWith s s = true := by
  rw [goStartsWith, List.isPrefixOf_iff_prefix]

theorem goStartsWith_append_left (a b : String) : goStartsWith (a ++ b) a = true := by
  rw [goStartsWith, String.data_append, List.isPrefixOf_iff_prefix]
  exact List.prefix_append _ _

theorem lookupA_foldl_insertPairs {α : Type} (base : List (String × α))
    (l : List (String × α)) (k : String) (hk : ∀ q ∈ l, q.1 ≠ k) :
    lookupA (l.foldl (fun m q => insertA m q.1 q.2) base) k = lookupA base k := by
  induction l generalizing base with
  | nil => rfl
  | cons q rest ih =>
    rw [List.foldl_cons, ih _ (fun r hr => hk r (List.mem_cons_of_mem _ hr)),
      lookupA_insertA, if_neg (hk q (List.mem_cons_self _ _))]

theorem lookupA_foldl_insertFiles (base : List (String × FileState))
    (files : List FileInfo) (dir k : String)
    (hk : ∀ f ∈ files, dir ++ ":" ++ f.path ≠ k) :
    lookupA (files.foldl
      (fun m f => insertA m (dir ++ ":" ++ f.path) (toFileState f)) base) k
      = lookupA base k := by
  induction files generalizing base with
  | nil => rfl
  | cons f rest ih =>
    rw [List.foldl_cons, ih _ (fun g hg => hk g (List.mem_cons_of_mem _ hg)),
      lookupA_insertA, if_neg (hk f (List.mem_cons_self _ _))]

theorem lookupA_foldl_insertSunk (base : List (String × String))
    (sunk : List (String × String)) (k : String)
    (hk : ∀ q ∈ sunk, normSlash q.1 ≠ k) :
    lookupA (sunk.foldl (fun m q => insertA m (normSlash q.1) q.2) base) k
      = lookupA base k := by
  induction sunk generalizing base with
  | nil => rfl
  | cons q rest ih =>
    rw [List.foldl_cons, ih _ (fun r hr => hk r (List.mem_cons_of_mem _ hr)),
      lookupA_insertA, if_neg (hk q (List.mem_cons_self _ _))]

/-- A per-directory step never adds a `files` key outside its root's
composite-key namespace. -/
theorem processDir_files_frame (o : ClientOracle) (now : Int) (prev : State)
    (ih : Bool) (cur : State) (d : String) (cur' : State) (ch : Changes) (k : String)
    (hrun : processDir o now prev ih cur d = some (cur', ch))
    (hk : goStartsWith k (normalizeDir d ++ ":") = false) :
    lookupA cur'.files k = lookupA cur.files k := by
  rw [processDir] at hrun
  cases hstat : o.stat (normalizeDir d) with
  | none =>
    simp only [hstat] at hrun
    cases hrun
  | some dirInfo =>
    simp only [hstat] at hrun
    by_cases hcond : (lookupA prev.dirETags (normalizeDir d)).getD "" ≠ "" ∧
        (lookupA prev.dirETags (normalizeDir d)).getD "" = dirInfo.etag
    · rw [if_pos hcond] at hrun
      simp only [Option.some.injEq, Prod.mk.injEq] at hrun
      rw [← hrun.1]
      simp only
      apply lookupA_foldl_insertPairs
      intro q hq hqk
      rw [List.mem_filter, Bool.and_eq_true] at hq
      rw [hqk] at hq
      have h2 := hq.2.1
      rw [hk] at h2
      cases h2
    · rw [if_neg hcond] at hrun
      cases hwalk : o.walk (normalizeDir d) ih with
      | none =>
        simp only [hwalk] at hrun
        cases hrun
      | some fs =>
        simp only [hwalk] at hrun
        obtain ⟨files, sunk⟩ := fs
        simp only [Option.some.injEq, Prod.mk.injEq] at hrun
        rw [← hrun.1]
        simp only
        apply lookupA_foldl_insertFiles
        intro f hf hfk
        rw [← hfk] at hk
        have : goStartsWith (normalizeDir d ++ ":" ++ f.path) (normalizeDir d ++ ":") = true :=
          goStartsWith_append_left _ _
        rw [hk] at this
        exact Bool.false_ne_true this

/-- A per-directory step only adds `dir_etags` keys at the normalized
root or at walker-reported subdirectory paths. -/
theorem processDir_etags_frame (o : ClientOracle) (now : Int) (prev : State)
    (ih : Bool) (cur : State) (d : String) (cur' : State) (ch : Changes) (k : String)
    (hrun : processDir o now prev ih cur d = some (cur', ch))
    (hsunk : ∀ dir ihb files sunk, o.walk dir ihb = some (files, sunk) →
      ∀ q ∈ sunk, goStartsWith (normSlash q.1) dir = true)
    (hk : goStartsWith k (normalizeDir d) = false) :
    lookupA cur'.dirETags k = lookupA cur.dirETags k := by
  have hkd : normalizeDir d ≠ k := by
    intro h
    rw [← h, goStartsWith_refl] at hk
    cases hk
  rw [processDir] at hrun
  cases hstat : o.stat (normalizeDir d) with
  | none =>
    simp only [hstat] at hrun
    cases hrun
  | some dirInfo =>
    simp only [hstat] at hrun
    by_cases hcond : (lookupA prev.dirETags (normalizeDir d)).getD "" ≠ "" ∧
        (lookupA prev.dirETags (normalizeDir d)).getD "" = dirInfo.etag
    · rw [if_pos hcond] at hrun
      simp only [Option.some.injEq, Prod.mk.injEq] at hrun
      rw [← hrun.1]
      simp only
      rw [lookupA_insertA, if_neg hkd]
    · rw [if_neg hcond] at hrun
      cases hwalk : o.walk (normalizeDir d) ih with
      | none =>
        simp only [hwalk] at hrun
        cases hrun
      | some fs =>
        simp only [hwalk] at hrun
        obtain ⟨files, sunk⟩ := fs
        simp only [Option.some.injEq, Prod.mk.injEq] at hrun
        rw [← hrun.1]
        simp only
        rw [lookupA_insertA, if_neg hkd]
        apply lookupA_foldl_insertSunk
        intro q hq hqk
        have := hsunk (normalizeDir d) ih files sunk hwalk q hq
        rw [hqk, hk] at this
        exact Bool.false_ne_true this

/-- The whole per-directory loop never adds a `files` key outside the
requested roots' namespaces. -/
theorem detectDirs_files_frame (o : ClientOracle) (now : Int) (prev : State) (ih : Bool) :
    ∀ (dirs : List String) (cur curF : State) (chs : List Changes) (k : String),
      detectDirs o now prev ih dirs cur = some (curF, chs) →
      (∀ d ∈ dirs, goStartsWith k (normalizeDir d ++ ":") = false) →
      lookupA curF.files k = lookupA cur.files k
  | [], cur, curF, chs, k, hrun, hk => by
    rw [detectDirs] at hrun
    simp only [Option.some.injEq, Prod.mk.injEq] at hrun
    rw [← hrun.1]
  | d :: rest, cur, curF, chs, k, hrun, hk => by
    rw [detectDirs] at hrun
    cases hp : processDir o now prev ih cur d with
    | none =>
      simp only [hp] at hrun
      exact Option.noConfusion hrun
    | some pr =>
      obtain ⟨cur1, ch1⟩ := pr
      simp only [hp] at hrun
      cases hr : detectDirs o now prev ih rest cur1 with
      | none =>
        simp only [hr] at hrun
        exact Option.noConfusion hrun
      | some pr2 =>
        obtain ⟨curF2, chs2⟩ := pr2
        simp only [hr, Option.some.injEq, Prod.mk.injEq] at hrun
        have ih1 := detectDirs_files_frame o now prev ih rest cur1 curF2 chs2 k hr
          (fun d' hd' => hk d' (List.mem_cons_of_mem _ hd'))
        rw [← hrun.1, ih1]
        exact processDir_files_frame o now prev ih cur d cur1 ch1 k hp
          (hk d (List.mem_cons_self _ _))

/-- The whole per-directory loop never adds a `dir_etags` key outside the
requested roots and their walked subdirectories. -/
theorem detectDirs_etags_frame (o : ClientOracle) (now : Int) (prev : State) (ih : Bool)
    (hsunk : ∀ dir ihb files sunk, o.walk dir ihb = some (files, sunk) →
      ∀ q ∈ sunk, goStartsWith (normSlash q.1) dir = true) :
    ∀ (dirs : List String) (cur curF : State) (chs : List Changes) (k : String),
      detectDirs o now prev ih dirs cur = some (curF, chs) →
      (∀ d ∈ dirs, goStartsWith k (normalizeDir d) = false) →
      lookupA curF.dirETags k = lookupA cur.dirETags k
  | [], cur, curF, chs, k, hrun, hk => by
    rw [detectDirs] at hrun
    simp only [Option.some.injEq, Prod.mk.injEq] at hrun
    rw [← hrun.1]
  | d :: rest, cur, curF, chs, k, hrun, hk => by
    rw [detectDirs] at hrun
    cases hp : processDir o now prev ih cur d with
    | none =>
      simp only [hp] at hrun
      exact Option.noConfusion hrun
    | some pr =>
      obtain ⟨cur1, ch1⟩ := pr
      simp only [hp] at hrun
      cases hr : detectDirs o now prev ih rest cur1 with
      | none =>
        simp only [hr] at hrun
        exact Option.noConfusion hrun
      | some pr2 =>
        obtain ⟨curF2, chs2⟩ := pr2
        simp only [hr, Option.some.injEq, Prod.mk.injEq] at hrun
        have ih1 := detectDirs_etags_frame o now prev ih hsunk rest cur1 curF2 chs2 k hr
          (fun d' hd' => hk d' (List.mem_cons_of_mem _ hd'))
        rw [← hrun.1, ih1]
        exact processDir_etags_frame o now prev ih cur d cur1 ch1 k hp hsunk
          (hk d (List.mem_cons_self _ _))

/-- C10 (implicit frame property): the snapshot computed by a successful
detection holds entries only for the requested watch-roots — the current
state starts empty and is populated only inside the per-directory loop —
so any composite key outside every requested root's namespace is absent
from `files`, and (provided the walker only reports subdirectories under
the root it walks, as the real walker does) any directory path not at or
under a requested root is absent from `dir_etags`. -/
theorem detect_only_requested_roots
    (o : ClientOracle) (now : Int) (content : Option Jx) (dirs : List String)
    (ih : Bool) (chs : List Changes) (curF : State) (k : String)
    (hrun : detectTop o now content dirs ih = some (chs, curF)) :
    ((∀ d ∈ dirs, goStartsWith k (normalizeDir d ++ ":") = false) →
      lookupA curF.files k = none) ∧
    ((∀ d ∈ dirs, goStartsWith k (normalizeDir d) = false) →
      (∀ dir ihb files sunk, o.walk dir ihb = some (files, sunk) →
        ∀ q ∈ sunk, goStartsWith (normSlash q.1) dir = true) →
      lookupA curF.dirETags k = none) := by
  simp only [detectTop] at hrun
  cases hd : detectDirs o now
      (match loadState content with
       | Except.ok s => s
       | Except.error _ => ⟨[], [], 0⟩) ih dirs ⟨[], [], now⟩ with
  | none =>
    simp only [hd] at hrun
    exact Option.noConfusion hrun
  | some pr =>
    obtain ⟨curF2, chs2⟩ := pr
    simp only [hd, Option.some.injEq, Prod.mk.injEq] at hrun
    constructor
    · intro hk
      rw [← hrun.2]
      rw [detectDirs_files_frame o now _ ih dirs ⟨[], [], now⟩ curF2 chs2 k hd hk]
      rfl
    · intro hk hsunk
      rw [← hrun.2]
      rw [detectDirs_etags_frame o now _ ih hsunk dirs ⟨[], [], now⟩ curF2 chs2 k hd hk]
      rfl

/-- Witness for C10: after detecting only `/A` against a prior snapshot
recorded under `/B`, the key `/B:/f` and the dir-ETag key `/B` are
absent from the newly computed snapshot. -/
theorem detect_only_requested_roots_witness :
    detectTop ⟨fun _ => some ⟨"/A", true, 0, 0, "E"⟩, fun _ _ => some ([], [])⟩ 0
        (some (encodeState ⟨[("/B:/f", ⟨"/f", false, 1, 0, "F"⟩)], [("/B", "EB")], 0⟩))
        ["/A"] false
      = some ([{ directory := "/A", changes := [], timestamp := 0 }],
          ⟨[], [("/A", "E")], 0⟩) ∧
    lookupA (State.files ⟨[], [("/A", "E")], 0⟩) "/B:/f" = none ∧
    lookupA (State.dirETags ⟨[], [("/A", "E")], 0⟩) "/B" = none := by
  have H := detect_only_requested_roots
    ⟨fun _ => some ⟨"/A", true, 0, 0, "E"⟩, fun _ _ => some ([], [])⟩ 0
    (some (encodeState ⟨[("/B:/f", ⟨"/f", false, 1, 0, "F"⟩)], [("/B", "EB")], 0⟩))
    ["/A"] false [{ directory := "/A", changes := [], timestamp := 0 }]
    ⟨[], [("/A", "E")], 0⟩ "/B:/f" rfl
  have H2 := detect_only_requested_roots
    ⟨fun _ => some ⟨"/A", true, 0, 0, "E"⟩, fun _ _ => some ([], [])⟩ 0
    (some (encodeState ⟨[("/B:/f", ⟨"/f", false, 1, 0, "F"⟩)], [("/B", "EB")], 0⟩))
    ["/A"] false [{ directory := "/A", changes := [], timestamp := 0 }]
    ⟨[], [("/A", "E")], 0⟩ "/B" rfl
  refine ⟨rfl, H.1 (by decide), H2.2 (by decide) ?_⟩
  intro dir ihb files sunk h q hq
  simp only [Option.some.injEq, Prod.mk.injEq] at h
  rw [← h.2] at hq
  simp at hq

end GoNC

